import Mathlib

/-!
Verification development for the practice-log application (`src/app.py`).

The application stores practice-session records as JSON objects embedded
between literal marker strings inside GitHub issue comments.  This file
gives a shallow embedding of the pieces the specification talks about:

* a model of Python JSON values, of `json.dumps` (with `ensure_ascii=False`)
  and of `json.loads` (recursive descent with a fuel bound; running out of
  fuel yields `none`, and the fuel supplied by `json_loads` is generous
  enough for every input exercised by the theorems below);
* the compiled regular expression
  `OVINGSLOGG_V1_BEGIN\s*```json\s*(\{.*?\})\s*```\s*OVINGSLOGG_V1_END`
  (DOTALL), modelled by a deterministic matcher: the two literals are
  meta-character free, each `\s*` is followed by a non-whitespace literal so
  greedy whitespace skipping is deterministic, and the lazy `.*?` is the
  shortest-first scan implemented by `lazyScan`;
* `encode_entry_as_comment`, `extract_entries_from_comments`,
  `list_issue_comments` (pagination over an abstract transport),
  `post_issue_comment` (`raise_for_status`), the `@st.cache_data(ttl=30)`
  cache around `load_log_df`, the submit handler, and the pandas minutes
  coercion `pd.to_numeric(..., errors="coerce").fillna(0).astype(int)`.
-/

set_option maxRecDepth 4000

namespace Ovingslogg

/-- Python JSON values.  Objects are association lists in insertion order
(Python dicts preserve insertion order; duplicate keys are handled by
`dictInsert` below, matching `dict` assignment semantics).  Non-integer
numbers are kept symbolically as their source lexeme in `float`; no claim
involves non-integer JSON numbers. -/
inductive Json where
  | null : Json
  | bool : Bool → Json
  | int : Int → Json
  | float : String → Json
  | str : String → Json
  | arr : List Json → Json
  | obj : List (String × Json) → Json

/-- The fixed roster (`MEMBERS` in `src/app.py`). -/
def MEMBERS : List String :=
  ["Martin", "Herman", "Trygve", "Kristoffer", "Håkon Gåskjenn",
   "Eirik", "Rasmus", "Julian", "Steffen", "Leon", "Emil", "Mikael", "Kristian",
   "Mats", "Birk", "Borgar", "Theo", "Jakob", "Harald", "Erling",
   "Maxi", "Erlend", "Andreas", "Håkon Aase", "Marcus", "Jens"]

/-- The fixed duration option set (`MINUTES` in `src/app.py`). -/
def MINUTES : List Int := [10, 15, 20, 25, 30, 40, 45, 60, 75, 90]

/-- The fixed catalog of practice items (`PRACTICE_ITEMS` in `src/app.py`). -/
def PRACTICE_ITEMS : List String :=
  ["Oppvarming", "Stemmeøvelser", "Slått til riddere", "Ridder kai",
   "Akevitten", "MAR-Schlägers vol. 2", "Nå, e nu alla", "Norge", "Så rå",
   "Gryning vid havet", "Ode til 2. bass", "Kjærlighet for en natt",
   "Bergmannen", "Now and forever", "Der skåles", "Slem", "Olav Trygvason",
   "Hjertet slår"]

/-- The begin marker (`BEGIN` in `src/app.py`). -/
def BEGIN : String := "OVINGSLOGG_V1_BEGIN"

/-- The end marker (`END` in `src/app.py`). -/
def END : String := "OVINGSLOGG_V1_END"

/-! ## json.dumps (ensure_ascii=False, default separators) -/
/-- Hexadecimal digit, lowercase, as emitted by Python's `\uXXXX` escapes. -/
def hexDigit (n : Nat) : Char :=
  if n < 10 then Char.ofNat (48 + n) else Char.ofNat (87 + n)

/-- Escaping of one character inside a JSON string literal, as performed by
`json.dumps` with `ensure_ascii=False`: only `"`, `\`, and control
characters below 0x20 are escaped, everything else is emitted as is. -/
def escChar (c : Char) : List Char :=
  if c = '"' then ['\\', '"']
  else if c = '\\' then ['\\', '\\']
  else if c = '\n' then ['\\', 'n']
  else if c = '\r' then ['\\', 'r']
  else if c = '\t' then ['\\', 't']
  else if c = '\x08' then ['\\', 'b']
  else if c = '\x0c' then ['\\', 'f']
  else if c.toNat < 32 then
    ['\\', 'u', '0', '0', hexDigit (c.toNat / 16), hexDigit (c.toNat % 16)]
  else [c]

/-- Escape a whole string, character by character. -/
def escString : List Char → List Char
  | [] => []
  | c :: r => escChar c ++ escString r

mutual

/-- Serialisation of a JSON value, following `json.dumps` with its default
separators `", "` and `": "` and `ensure_ascii=False`.  A `float` prints its
stored lexeme (never exercised: the application only serialises strings,
integers, arrays and objects). -/
def dumpsVal : Json → List Char
  | Json.null => ['n', 'u', 'l', 'l']
  | Json.bool true => ['t', 'r', 'u', 'e']
  | Json.bool false => ['f', 'a', 'l', 's', 'e']
  | Json.int n => (toString n).toList
  | Json.float lex => lex.toList
  | Json.str s => '"' :: (escString s.toList ++ ['"'])
  | Json.arr xs => '[' :: (dumpsElems xs ++ [']'])
  | Json.obj ms => '\x7b' :: (dumpsMembers ms ++ ['\x7d'])

/-- Array elements joined with `", "`. -/
def dumpsElems : List Json → List Char
  | [] => []
  | [x] => dumpsVal x
  | x :: y :: r => dumpsVal x ++ ',' :: ' ' :: dumpsElems (y :: r)

/-- Object members joined with `", "`, each rendered as `"key": value`. -/
def dumpsMembers : List (String × Json) → List Char
  | [] => []
  | [(k, v)] => '"' :: (escString k.toList ++ '"' :: ':' :: ' ' :: dumpsVal v)
  | (k, v) :: m :: r =>
      ('"' :: (escString k.toList ++ '"' :: ':' :: ' ' :: dumpsVal v))
        ++ ',' :: ' ' :: dumpsMembers (m :: r)

end

/-- Model of `json.dumps(entry, ensure_ascii=False)`. -/
def json_dumps (j : Json) : String := String.mk (dumpsVal j)

/-! ## json.loads -/
/-- The four whitespace characters skipped by Python's `json` module. -/
def isJsonWs (c : Char) : Bool :=
  c = ' ' || c = '\t' || c = '\n' || c = '\r'

/-- Skip JSON whitespace. -/
def skipJsonWs (cs : List Char) : List Char := cs.dropWhile isJsonWs

/-- The numeric value of a list of decimal digits. -/
def digitsVal (ds : List Char) : Nat :=
  ds.foldl (fun a c => a * 10 + (c.toNat - 48)) 0

/-- Parse one hexadecimal digit (both cases accepted, as in `\uXXXX`). -/
def hexVal (c : Char) : Option Nat :=
  if '0' ≤ c ∧ c ≤ '9' then some (c.toNat - 48)
  else if 'a' ≤ c ∧ c ≤ 'f' then some (c.toNat - 87)
  else if 'A' ≤ c ∧ c ≤ 'F' then some (c.toNat - 55)
  else none

/-- Push the code point of one `\uXXXX` escape onto the accumulated code
points, combining a valid low surrogate with an immediately preceding high
surrogate into one scalar value, exactly as `json.decoder.scanstring` does
for adjacent `\uXXXX` escapes. -/
def pushCode (code : Nat) (acc : List Nat) : List Nat :=
  if 0xdc00 ≤ code ∧ code ≤ 0xdfff then
    match acc with
    | hi :: rest =>
      if 0xd800 ≤ hi ∧ hi ≤ 0xdbff then
        (0x10000 + (hi - 0xd800) * 0x400 + (code - 0xdc00)) :: rest
      else code :: acc
    | [] => code :: acc
  else code :: acc

/-- JSON string body scanner (after the opening quote), modelling
`json.decoder.scanstring` in strict mode: raw control characters below
0x20 are rejected and the escapes are exactly `\" \\ \/ \b \f \n \r \t`
and `\uXXXX`.  The accumulator holds code points so that surrogate pairs
can be merged by `pushCode`.  (A lone surrogate, which Python would keep
as an unpaired surrogate code unit, is not representable in a Lean `Char`
and falls back to `Char.ofNat`; no claim exercises lone surrogates.) -/
def pStrAux : List Char → List Nat → Option (String × List Char)
  | [], _ => none
  | c :: r, acc =>
    if c = '"' then some (String.mk (acc.reverse.map Char.ofNat), r)
    else if c = '\\' then
      match r with
      | [] => none
      | e :: r2 =>
        if e = '"' then pStrAux r2 (34 :: acc)
        else if e = '\\' then pStrAux r2 (92 :: acc)
        else if e = '/' then pStrAux r2 (47 :: acc)
        else if e = 'b' then pStrAux r2 (8 :: acc)
        else if e = 'f' then pStrAux r2 (12 :: acc)
        else if e = 'n' then pStrAux r2 (10 :: acc)
        else if e = 'r' then pStrAux r2 (13 :: acc)
        else if e = 't' then pStrAux r2 (9 :: acc)
        else if e = 'u' then
          match r2 with
          | h1 :: h2 :: h3 :: h4 :: r3 =>
            match hexVal h1, hexVal h2, hexVal h3, hexVal h4 with
            | some a, some b, some c2, some d =>
              pStrAux r3 (pushCode (((a * 16 + b) * 16 + c2) * 16 + d) acc)
            | _, _, _, _ => none
          | _ => none
        else none
    else if c.toNat < 32 then none
    else pStrAux r (c.toNat :: acc)

/-- Parse a JSON string body after the opening quote. -/
def pStr (cs : List Char) : Option (String × List Char) := pStrAux cs []

/-- Integer part of the JSON number grammar `(-?(?:0|[1-9]\d*))`:
a bare `0`, or a nonzero digit followed by digits.  Returns the digit list
and the remaining input. -/
def pIntPart : List Char → Option (List Char × List Char)
  | [] => none
  | c :: r =>
    if c = '0' then some (['0'], r)
    else if c.isDigit then some (c :: r.takeWhile Char.isDigit, r.dropWhile Char.isDigit)
    else none

/-- Optional fraction `(\.\d+)?`: taken only when a dot is followed by at
least one digit, otherwise the number ends before the dot. -/
def pFrac : List Char → Option (List Char × List Char)
  | '.' :: r =>
    match r.takeWhile Char.isDigit with
    | [] => none
    | ds => some ('.' :: ds, r.dropWhile Char.isDigit)
  | _ => none

/-- Optional exponent `([eE][-+]?\d+)?`. -/
def pExp : List Char → Option (List Char × List Char)
  | e :: r =>
    if e = 'e' ∨ e = 'E' then
      match r with
      | s :: r2 =>
        if s = '+' ∨ s = '-' then
          match r2.takeWhile Char.isDigit with
          | [] => none
          | ds => some (e :: s :: ds, r2.dropWhile Char.isDigit)
        else
          match r.takeWhile Char.isDigit with
          | [] => none
          | ds => some (e :: ds, r.dropWhile Char.isDigit)
      | [] => none
    else none
  | [] => none

/-- Parse a JSON number, following the scanner's `NUMBER_RE`: an integer
when neither a fraction nor an exponent follows, otherwise a float (kept as
its lexeme). -/
def pNum (cs : List Char) : Option (Json × List Char) :=
  let negSplit : Bool × List Char :=
    match cs with
    | c :: r => if c = '-' then (true, r) else (false, cs)
    | [] => (false, cs)
  let neg := negSplit.1
  let cs1 := negSplit.2
  match pIntPart cs1 with
  | none => none
  | some (ids, r1) =>
    let fracPart := pFrac r1
    let r2 := match fracPart with
      | some (_, r) => r
      | none => r1
    let expPart := pExp r2
    let r3 := match expPart with
      | some (_, r) => r
      | none => r2
    match fracPart, expPart with
    | none, none =>
      let v : Int := Int.ofNat (digitsVal ids)
      some (Json.int (if neg then -v else v), r1)
    | _, _ =>
      let lex := (if neg then ['-'] else []) ++ ids
        ++ (match fracPart with | some (l, _) => l | none => [])
        ++ (match expPart with | some (l, _) => l | none => [])
      some (Json.float (String.mk lex), r3)

/-- Python `dict` assignment `d[k] = v`: an existing key keeps its position
and gets the new value, a new key is appended. -/
def dictInsert : List (String × Json) → String → Json → List (String × Json)
  | [], k, v => [(k, v)]
  | (k', v') :: rest, k, v =>
    if k' = k then (k', v) :: rest else (k', v') :: dictInsert rest k v

/-- One step of `json.scanner`'s `scan_once` at a position where leading
whitespace has already been skipped: dispatch on the first character.
`pMem` and `pElm` are the continuations for a nonempty object body and a
nonempty array body (tied to one less fuel by `pVal` below). -/
def pValStep
    (pMem : List Char → List (String × Json) → Option (List (String × Json) × List Char))
    (pElm : List Char → Option (List Json × List Char))
    (cs : List Char) : Option (Json × List Char) :=
  match cs with
  | [] => none
  | c :: cs' =>
    if c = '"' then
      match pStr cs' with
      | some (s, r) => some (Json.str s, r)
      | none => none
    else if c = '\x7b' then
      match skipJsonWs cs' with
      | c2 :: r2 =>
        if c2 = '\x7d' then some (Json.obj [], r2)
        else
          match pMem (c2 :: r2) [] with
          | some (ms, r) => some (Json.obj ms, r)
          | none => none
      | [] => none
    else if c = '[' then
      match skipJsonWs cs' with
      | c2 :: r2 =>
        if c2 = ']' then some (Json.arr [], r2)
        else
          match pElm (c2 :: r2) with
          | some (vs, r) => some (Json.arr vs, r)
          | none => none
      | [] => none
    else if c = 't' then
      match cs' with
      | 'r' :: 'u' :: 'e' :: r => some (Json.bool true, r)
      | _ => none
    else if c = 'f' then
      match cs' with
      | 'a' :: 'l' :: 's' :: 'e' :: r => some (Json.bool false, r)
      | _ => none
    else if c = 'n' then
      match cs' with
      | 'u' :: 'l' :: 'l' :: r => some (Json.null, r)
      | _ => none
    else if c = 'N' then
      match cs' with
      | 'a' :: 'N' :: r => some (Json.float "NaN", r)
      | _ => none
    else if c = 'I' then
      match cs' with
      | 'n' :: 'f' :: 'i' :: 'n' :: 'i' :: 't' :: 'y' :: r =>
        some (Json.float "Infinity", r)
      | _ => none
    else if c = '-' then
      match cs' with
      | 'I' :: 'n' :: 'f' :: 'i' :: 'n' :: 'i' :: 't' :: 'y' :: r =>
        some (Json.float "-Infinity", r)
      | _ => pNum (c :: cs')
    else pNum (c :: cs')

/-- One step of the array-element loop (after `[` and leading whitespace,
array known nonempty): value, then `, value` repeated, then `]`.  `pV`
parses one value and `pElm` continues the loop. -/
def pElemsStep
    (pV : List Char → Option (Json × List Char))
    (pElm : List Char → Option (List Json × List Char))
    (cs : List Char) : Option (List Json × List Char) :=
  match pV cs with
  | none => none
  | some (v, r1) =>
    match skipJsonWs r1 with
    | c2 :: r2 =>
      if c2 = ',' then
        match pElm (skipJsonWs r2) with
        | some (vs, r3) => some (v :: vs, r3)
        | none => none
      else if c2 = ']' then some ([v], r2)
      else none
    | [] => none

/-- One step of the object-member loop (after `{` and leading whitespace,
object known nonempty): `"key": value`, then `, "key": value` repeated,
then `}`.  Members accumulate with `dictInsert`, i.e. with Python `dict`
semantics. -/
def pMembersStep
    (pV : List Char → Option (Json × List Char))
    (pMem : List Char → List (String × Json) → Option (List (String × Json) × List Char))
    (cs : List Char) (acc : List (String × Json)) :
    Option (List (String × Json) × List Char) :=
  match cs with
  | c0 :: r0 =>
    if c0 = '"' then
      match pStr r0 with
      | none => none
      | some (k, r1) =>
        match skipJsonWs r1 with
        | c1 :: r2 =>
          if c1 = ':' then
            match pV (skipJsonWs r2) with
            | none => none
            | some (v, r3) =>
              match skipJsonWs r3 with
              | c3 :: r4 =>
                if c3 = ',' then pMem (skipJsonWs r4) (dictInsert acc k v)
                else if c3 = '\x7d' then some (dictInsert acc k v, r4)
                else none
              | [] => none
          else none
        | [] => none
    else none
  | [] => none

mutual

/-- One JSON value.  The fuel only bounds recursion depth and loop length;
`json_loads` supplies more fuel than any input can consume. -/
def pVal : Nat → List Char → Option (Json × List Char)
  | 0, _ => none
  | f + 1, cs => pValStep (pMembers f) (pElems f) cs

/-- The array-element loop. -/
def pElems : Nat → List Char → Option (List Json × List Char)
  | 0, _ => none
  | f + 1, cs => pElemsStep (pVal f) (pElems f) cs

/-- The object-member loop. -/
def pMembers : Nat → List Char → List (String × Json) → Option (List (String × Json) × List Char)
  | 0, _, _ => none
  | f + 1, cs, acc => pMembersStep (pVal f) (pMembers f) cs acc

end

/-- Model of `json.loads`: skip leading whitespace, parse one value, skip
trailing whitespace, and require the input to be exhausted (`Extra data`
otherwise).  `none` models a raised `json.JSONDecodeError`.  The fuel
`2 * length + 2` dominates the parser's recursion: every two fuel
decrements consume at least one input character. -/
def json_loads (s : String) : Option Json :=
  match pVal (2 * s.length + 2) (skipJsonWs s.toList) with
  | some (v, rest) => if skipJsonWs rest = [] then some v else none
  | none => none

/-! ## The marker regular expression

`src/app.py` compiles `rf"{BEGIN}\s*```json\s*(\{{.*?\}})\s*```\s*{END}"`
with `re.DOTALL` and calls `pattern.search(body)`.  Both markers are free of
regex metacharacters, so they match literally.  Each `\s*` is immediately
followed by a literal whose first character is never whitespace (a backtick,
an opening brace, or `O`), so the greedy `\s*` deterministically consumes
the maximal run of whitespace.  The lazy `.*?` inside the group
`(\{.*?\})` tries, at each scan position, first to close the group (match
`\}` and the rest of the pattern) and only otherwise consumes one more
character (any character, because of DOTALL); `search` returns the match
with the leftmost starting position. -/
/-- Characters matched by `\s` in a Python `str` pattern (the characters
for which `str.isspace()` holds). -/
def isPyStrSpace (c : Char) : Bool :=
  c.toNat ∈ ([9, 10, 11, 12, 13, 28, 29, 30, 31, 32, 0x85, 0xa0, 0x1680] : List Nat)
    || (0x2000 ≤ c.toNat && c.toNat ≤ 0x200a)
    || c.toNat ∈ ([0x2028, 0x2029, 0x202f, 0x205f, 0x3000] : List Nat)

/-- Skip the characters matched by a `\s*` whose continuation starts with a
non-whitespace literal (deterministic greedy match). -/
def skipRegexWs (cs : List Char) : List Char := cs.dropWhile isPyStrSpace

/-- Strip a literal from the front of the input; `none` when the input does
not start with it. -/
def dropLit : List Char → List Char → Option (List Char)
  | [], cs => some cs
  | _ :: _, [] => none
  | p :: ps, c :: cs => if c = p then dropLit ps cs else none

/-- Does the rest of the pattern after the group, `\s*```\s*END`, match at
the front of the input? -/
def tailOK (cs : List Char) : Bool :=
  match dropLit "```".toList (skipRegexWs cs) with
  | none => false
  | some r2 =>
    match dropLit END.toList (skipRegexWs r2) with
    | none => false
    | some _ => true

/-- Lazy scan for `.*?\}` followed by the rest of the pattern: at each
position first try to close the group there, otherwise consume the current
character (DOTALL: any character).  Returns the full group text, braces
included, as captured by `m.group(1)`. -/
def lazyScan : List Char → List Char → Option (List Char)
  | [], _ => none
  | c :: rest, acc =>
    if c = '\x7d' && tailOK rest then some ('\x7b' :: (acc.reverse ++ ['\x7d']))
    else lazyScan rest (c :: acc)

/-- Attempt to match the whole pattern at the front of the input, returning
the text captured by the group. -/
def matchMarked (cs : List Char) : Option (List Char) :=
  match dropLit BEGIN.toList cs with
  | none => none
  | some r1 =>
    match dropLit "```json".toList (skipRegexWs r1) with
    | none => none
    | some r2 =>
      match skipRegexWs r2 with
      | c :: r3 => if c = '\x7b' then lazyScan r3 [] else none
      | [] => none

/-- Model of `pattern.search(body)`: try the match at every start position,
left to right, and return the group of the first success. -/
def searchMarked : List Char → Option (List Char)
  | [] => matchMarked []
  | c :: rest =>
    match matchMarked (c :: rest) with
    | some g => some g
    | none => searchMarked rest

/-! ## extract_entries_from_comments and encode_entry_as_comment -/
/-- One GitHub comment as consumed by the application: only the `body`
field is read, via `c.get("body", "") or ""`, so a missing or `None` body
is modelled by `none`. -/
structure GhComment where
  body : Option String

deriving DecidableEq

deriving instance DecidableEq for Except

/-- Model of `c.get("body", "") or ""`. -/
def commentBody (c : GhComment) : String := c.body.getD ""

/-- The per-comment step of the loop in `extract_entries_from_comments`:
search for the marked region; no match skips the comment, and a region
whose text does not parse (`json.JSONDecodeError`, caught by the
`try`/`except`) also skips the comment. -/
def decodeBlob (c : GhComment) : Option Json :=
  match searchMarked (commentBody c).toList with
  | none => none
  | some raw => json_loads (String.mk raw)

/-- The accumulating loop of `extract_entries_from_comments`. -/
def extractLoop : List GhComment → List Json → List Json
  | [], acc => acc
  | c :: rest, acc =>
    match decodeBlob c with
    | none => extractLoop rest acc
    | some j => extractLoop rest (acc ++ [j])

/-- Model of `extract_entries_from_comments`. -/
def extract_entries_from_comments (comments : List GhComment) : List Json :=
  extractLoop comments []

/-- Model of `encode_entry_as_comment`:
`f"{BEGIN}\n```json\n{json.dumps(entry, ensure_ascii=False)}\n```\n{END}"`. -/
def encode_entry_as_comment (entry : Json) : String :=
  BEGIN ++ "\n```json\n" ++ json_dumps entry ++ "\n```\n" ++ END

/-! ## PracticeEntry -/
/-- One submitted practice session, as assembled by the submit handler in
`src/app.py` (the fields of the dict literal there). -/
structure PracticeEntry where
  ts : String
  date : String
  member : String
  minutes : Int
  practiced : List String

/-- The members of the JSON object the submit handler builds for an
entry: keys in dict insertion order `v, ts, date, member, minutes,
practiced`, with `v = 1`. -/
def entryMembers (e : PracticeEntry) : List (String × Json) :=
  [("v", Json.int 1), ("ts", Json.str e.ts), ("date", Json.str e.date),
    ("member", Json.str e.member), ("minutes", Json.int e.minutes),
    ("practiced", Json.arr (e.practiced.map Json.str))]

/-- The JSON object the submit handler builds for an entry. -/
def entryJson (e : PracticeEntry) : Json := Json.obj (entryMembers e)

/-- Characters that `json.dumps` emits unescaped and that the string
scanner consumes unescaped, and that moreover cannot close the lazy group
early (no `\x7d`): anything except `"`, `\`, `\x7d` and control characters. -/
def plainChar (c : Char) : Bool :=
  c ≠ '"' && c ≠ '\\' && 32 ≤ c.toNat && c ≠ '\x7d'

/-- A string all of whose characters are plain. -/
def plainStr (s : String) : Bool := s.toList.all plainChar

/-- Characters produced by `datetime.isoformat` / `date.isoformat`:
digits, `-`, `:` and `T`. -/
def isStampChar (c : Char) : Bool :=
  c.isDigit || c = '-' || c = ':' || c = 'T'

/-- A well-formed timestamp or date string: every character comes from the
`isoformat` character set. -/
def wellFormedStamp (s : String) : Bool := s.toList.all isStampChar

/-- A valid practice entry in the sense of the specification: member from
the roster, minutes from the fixed option set, practiced items from the
catalog, and well-formed `ts` and `date`. -/
def ValidEntry (e : PracticeEntry) : Prop :=
  e.member ∈ MEMBERS ∧ e.minutes ∈ MINUTES ∧
    (∀ x ∈ e.practiced, x ∈ PRACTICE_ITEMS) ∧
    wellFormedStamp e.ts = true ∧ wellFormedStamp e.date = true

instance (e : PracticeEntry) : Decidable (ValidEntry e) := by
  unfold ValidEntry; infer_instance

/-! ## load_log_df: the DataFrame, the minutes coercion, and its error paths

`load_log_df` builds `pd.DataFrame(entries)` — whose columns are the union
of the decoded entries' keys, with `NaN` in the cells of a missing key —
and then runs

* `df["ts"] = pd.to_datetime(df["ts"], errors="coerce")` and likewise for
  `date`: reading `df["ts"]` raises `KeyError` when no entry carries the
  key (the column does not exist); the datetime coercion itself is total
  (`errors="coerce"` gives `NaT`) and its result is not needed by any
  claim, so only the `KeyError` is modelled;
* `df["minutes"] = pd.to_numeric(df["minutes"], errors="coerce").fillna(0).astype(int)`:
  `KeyError` again when no entry has the key; `pd.to_numeric` raises
  `TypeError` on a list or dict cell even under `errors="coerce"`, and
  otherwise turns each cell into a number or `NaN`; `fillna(0)` replaces
  `NaN` (but not infinities) by 0; `astype(int)` truncates toward zero and
  raises on a non-finite value or one outside the signed 64-bit range.

The whole call is therefore fallible: `Except` an error, the table.  When
it raises, `st.cache_data` stores nothing (see `cached_load` below).
Decoded entries are always JSON objects, because the captured regex group
starts with a literal `\x7b`; a non-object entry is given no keys here. -/
/-- Field lookup `j["minutes"]`-style on a decoded object; `none` models a
key that is absent (hence `NaN` in the corresponding DataFrame cell). -/
def jsonGet (j : Json) (key : String) : Option Json :=
  match j with
  | Json.obj ms => ms.lookup key
  | _ => none

/-- Truncation toward zero of the decimal number
`sign * intDigits.fracDigits * 10^exp`, as `astype(int)` performs on a
finite float. -/
def truncDecimal (neg : Bool) (intDs fracDs : List Char) (exp : Int) : Int :=
  let a := digitsVal (intDs ++ fracDs)
  let e : Int := exp - fracDs.length
  let m : Nat := if 0 ≤ e then a * 10 ^ e.toNat else a / 10 ^ (-e).toNat
  if neg then -(m : Int) else (m : Int)

/-- Exponent tail `[eE][+-]?digits` of a numeric string; `none` when
malformed. -/
def pdExpPart (cs : List Char) : Option Int :=
  match cs with
  | [] => some 0
  | e :: r =>
    if e = 'e' ∨ e = 'E' then
      let (negE, r2) := match r with
        | '-' :: r2 => (true, r2)
        | '+' :: r2 => (false, r2)
        | _ => (false, r)
      match r2.takeWhile Char.isDigit with
      | [] => none
      | ds =>
        if r2.dropWhile Char.isDigit = [] then
          some (if negE then -(digitsVal ds : Int) else (digitsVal ds : Int))
        else none
    else none

/-- One `minutes` cell after `pd.to_numeric(..., errors="coerce")`, with
the truncation toward zero of the final `astype(int)` already recorded for
a finite value: `nan` becomes 0 through `fillna(0)`; `fin n` survives the
cast exactly when `n` fits a signed 64-bit integer; `inf` makes
`astype(int)` raise; `bad` makes `pd.to_numeric` itself raise `TypeError`
(a list or dict cell is rejected even under `errors="coerce"`). -/
inductive PdCell where
  | nan : PdCell
  | fin : Int → PdCell
  | inf : PdCell
  | bad : PdCell
deriving DecidableEq

/-- Spellings that `float()`-style numeric parsing reads as an infinite
value once the sign is stripped: `inf` and `infinity` in any letter
case. -/
def isInfSpelling (cs : List Char) : Bool :=
  cs.map Char.toLower == "inf".toList || cs.map Char.toLower == "infinity".toList

/-- The cell `pd.to_numeric(s, errors="coerce")` makes of the string `s`:
optional surrounding whitespace and an optional sign, then either an
infinity spelling (a non-finite float, `PdCell.inf`), or digits with an
optional fraction and exponent (`PdCell.fin` of the truncation toward zero
that `astype(int)` later performs), or anything else, which
`errors="coerce"` maps to `NaN`. -/
def pdStrCell (s : String) : PdCell :=
  let cs := ((s.toList.dropWhile isPyStrSpace).reverse.dropWhile isPyStrSpace).reverse
  let (neg, cs1) := match cs with
    | '-' :: r => (true, r)
    | '+' :: r => (false, r)
    | _ => (false, cs)
  if isInfSpelling cs1 then PdCell.inf
  else
    let ids := cs1.takeWhile Char.isDigit
    let r1 := cs1.dropWhile Char.isDigit
    match r1 with
    | '.' :: r2 =>
      let fds := r2.takeWhile Char.isDigit
      let r3 := r2.dropWhile Char.isDigit
      if ids = [] ∧ fds = [] then PdCell.nan
      else
        match pdExpPart r3 with
        | some ex => PdCell.fin (truncDecimal neg ids fds ex)
        | none => PdCell.nan
    | _ =>
      if ids = [] then PdCell.nan
      else
        match pdExpPart r1 with
        | some ex => PdCell.fin (truncDecimal neg ids [] ex)
        | none => PdCell.nan

/-- The cell `pd.to_numeric(v, errors="coerce")` assigns to one value: a
number or boolean is numeric, a string is parsed (`NaN` when unparsable),
`None` is `NaN`, and a list or dict raises `TypeError` from inside
`to_numeric` even under `errors="coerce"`. -/
def toNumericCoerce : Json → PdCell
  | Json.int n => PdCell.fin n
  | Json.bool b => PdCell.fin (if b then 1 else 0)
  | Json.str s => pdStrCell s
  | Json.float lex => pdStrCell lex
  | Json.null => PdCell.nan
  | Json.arr _ => PdCell.bad
  | Json.obj _ => PdCell.bad

/-- The `minutes` cell `pd.DataFrame(entries)` holds for one entry: `NaN`
for a missing key, otherwise the `to_numeric` coercion of the value. -/
def minutesCell (j : Json) : PdCell :=
  match jsonGet j "minutes" with
  | none => PdCell.nan
  | some v => toNumericCoerce v

/-- Does the cell make `pd.to_numeric` raise `TypeError`. -/
def isBadCell : PdCell → Bool
  | PdCell.bad => true
  | _ => false

/-- Does the cell make `astype(int)` raise: a non-finite value, or a
finite one outside the signed 64-bit range (an `OverflowError` or
`ValueError` in both cases; at the `2 ^ 63` representability cusp the
model uses the exact value where the program rounds through float64). -/
def cellUncastable : PdCell → Bool
  | PdCell.inf => true
  | PdCell.fin n => decide (n < -(2 ^ 63)) || decide (2 ^ 63 - 1 < n)
  | _ => false

/-- The integer a castable cell contributes to the `minutes` column:
`fillna(0)` turns `NaN` into 0, `astype(int)` keeps the truncation.  Only
reached when no cell of the column is `bad` or uncastable. -/
def cellValue : PdCell → Int
  | PdCell.fin n => n
  | _ => 0

/-- One row of the table produced by `load_log_df`: the decoded entry
together with its coerced `minutes` value. -/
structure LogRow where
  entry : Json
  minutes : Int

/-- The errors `load_log_df` can raise while building the table: a column
access on a key no entry carries (`df["ts"]`, `df["date"]`,
`df["minutes"]`), the `TypeError` of `pd.to_numeric` on a container cell,
and the error of `astype(int)` on a non-finite or out-of-range value. -/
inductive LoadErr where
  | keyError : String → LoadErr
  | typeError : LoadErr
  | intCastError : LoadErr
deriving DecidableEq

/-- Does `pd.DataFrame(entries)` have the given column: a column exists
exactly when at least one entry carries the key. -/
def hasColumn (entries : List Json) (col : String) : Bool :=
  entries.any (fun j => (jsonGet j col).isSome)

/-- The table-building part of `load_log_df` (src/app.py:119-126) on the
decoded entries: an empty log yields the empty table with the fixed
columns; otherwise the three column accesses can raise `KeyError` in
source order, `pd.to_numeric` raises on a container cell, `astype(int)`
raises on a non-finite or out-of-range cell, and on success every entry
appears as a row with its coerced minutes value. -/
def load_log_df_entries (entries : List Json) : Except LoadErr (List LogRow) :=
  if entries.isEmpty = true then Except.ok []
  else if hasColumn entries "ts" = false then Except.error (LoadErr.keyError "ts")
  else if hasColumn entries "date" = false then Except.error (LoadErr.keyError "date")
  else if hasColumn entries "minutes" = false then Except.error (LoadErr.keyError "minutes")
  else if (entries.map minutesCell).any isBadCell = true then Except.error LoadErr.typeError
  else if (entries.map minutesCell).any cellUncastable = true then
    Except.error LoadErr.intCastError
  else Except.ok (entries.map (fun j => ⟨j, cellValue (minutesCell j)⟩))

/-- Model of `load_log_df(issue_number)` past the fetch: decode the thread
and build the table, propagating the table-building errors. -/
def load_log_rows (comments : List GhComment) : Except LoadErr (List LogRow) :=
  load_log_df_entries (extract_entries_from_comments comments)

/-! ## render_member_log: per-member aggregation -/
/-- The `member` cell of a row, used by the filter
`df[df["member"] == member_name]`: only a string value can compare equal
to the selected member name. -/
def memberField (j : Json) : Option String :=
  match jsonGet j "member" with
  | some (Json.str s) => some s
  | _ => none

/-- The rows `render_member_log` keeps for one member. -/
def member_rows (rows : List LogRow) (name : String) : List LogRow :=
  rows.filter (fun r => memberField r.entry == some name)

/-- The value of `st.metric("Totalt minutter", int(df["minutes"].sum()))`
for one member. -/
def member_total_minutes (rows : List LogRow) (name : String) : Int :=
  ((member_rows rows name).map LogRow.minutes).sum

/-- The value of `st.metric("Antall økter", int(len(df)))` for one
member. -/
def member_session_count (rows : List LogRow) (name : String) : Nat :=
  (member_rows rows name).length

/-- Model of `render_member_log` (src/app.py:128-146) up to its metrics:
`load_log_df` may raise; the filter `df[df["member"] == member_name]`
raises `KeyError` when the log is nonempty and no entry carries the
`member` key; an empty filtered frame shows "Ingen økter logget ennå."
and no metrics (`none`); otherwise the `practiced` join raises `KeyError`
when no entry carries that key, and the metrics are the member's total
minutes and session count. -/
def render_member_log (comments : List GhComment) (name : String) :
    Except LoadErr (Option (Int × Nat)) :=
  match load_log_rows comments with
  | Except.error e => Except.error e
  | Except.ok rows =>
    if (extract_entries_from_comments comments).isEmpty = false
        ∧ hasColumn (extract_entries_from_comments comments) "member" = false then
      Except.error (LoadErr.keyError "member")
    else if (member_rows rows name).isEmpty = true then Except.ok none
    else if hasColumn (extract_entries_from_comments comments) "practiced" = false then
      Except.error (LoadErr.keyError "practiced")
    else Except.ok (some (member_total_minutes rows name, member_session_count rows name))

/-- Modelled from the spec: `src/` holds only the flat-roster variant,
whose `render_member_log` shows a single member's log and totals; the
total-minutes summary over several members described by the
specification's aggregation property is the sum of the per-member
totals over the successfully built table. -/
def total_minutes_over (rows : List LogRow) (names : List String) : Int :=
  (names.map (member_total_minutes rows)).sum

/-- Insert one (member, total) pair into a list sorted by descending
total. -/
def insertDesc (x : String × Int) : List (String × Int) → List (String × Int)
  | [] => [x]
  | y :: r => if y.2 ≤ x.2 then x :: y :: r else y :: insertDesc x r

/-- Insertion sort by descending total. -/
def sortDesc : List (String × Int) → List (String × Int)
  | [] => []
  | x :: r => insertDesc x (sortDesc r)

/-- Modelled from the spec: a leaderboard listing the given members with
their total minutes, sorted descending by total (present in the repository
variants that are not under `src/`). -/
def leaderboard (rows : List LogRow) (names : List String) : List (String × Int) :=
  sortDesc (names.map (fun n => (n, member_total_minutes rows n)))

/-- A full practice comment for member Mats: 20 minutes, all keys
present. -/
def matsComment : GhComment :=
  ⟨some "OVINGSLOGG_V1_BEGIN\n```json\n\x7b\"v\": 1, \"ts\": \"2026-10-12T14:30:05\", \"date\": \"2026-10-12\", \"member\": \"Mats\", \"minutes\": 20, \"practiced\": [\"Oppvarming\"]\x7d\n```\nOVINGSLOGG_V1_END"⟩

/-- The decoded entry of `matsComment`. -/
def matsEntry : Json :=
  Json.obj [("v", Json.int 1), ("ts", Json.str "2026-10-12T14:30:05"),
    ("date", Json.str "2026-10-12"), ("member", Json.str "Mats"),
    ("minutes", Json.int 20), ("practiced", Json.arr [Json.str "Oppvarming"])]

/-- A full practice comment for member Birk: 30 minutes, all keys
present. -/
def birkComment : GhComment :=
  ⟨some "OVINGSLOGG_V1_BEGIN\n```json\n\x7b\"v\": 1, \"ts\": \"2026-10-12T18:00:00\", \"date\": \"2026-10-12\", \"member\": \"Birk\", \"minutes\": 30, \"practiced\": [\"Norge\"]\x7d\n```\nOVINGSLOGG_V1_END"⟩

/-- The decoded entry of `birkComment`. -/
def birkEntry : Json :=
  Json.obj [("v", Json.int 1), ("ts", Json.str "2026-10-12T18:00:00"),
    ("date", Json.str "2026-10-12"), ("member", Json.str "Birk"),
    ("minutes", Json.int 30), ("practiced", Json.arr [Json.str "Norge"])]

/-- A comment whose entry has every key but carries `minutes` as the
non-numeric text `"tretti"`. -/
def trettiComment : GhComment :=
  ⟨some "OVINGSLOGG_V1_BEGIN\n```json\n\x7b\"v\": 1, \"ts\": \"2026-10-12T20:00:00\", \"date\": \"2026-10-12\", \"member\": \"Mats\", \"minutes\": \"tretti\", \"practiced\": []\x7d\n```\nOVINGSLOGG_V1_END"⟩

/-- The decoded entry of `trettiComment`. -/
def trettiEntry : Json :=
  Json.obj [("v", Json.int 1), ("ts", Json.str "2026-10-12T20:00:00"),
    ("date", Json.str "2026-10-12"), ("member", Json.str "Mats"),
    ("minutes", Json.str "tretti"), ("practiced", Json.arr [])]

/-- A comment whose entry has every key but carries `minutes` as the text
`"inf"`, which `pd.to_numeric` parses to an infinite float. -/
def infComment : GhComment :=
  ⟨some "OVINGSLOGG_V1_BEGIN\n```json\n\x7b\"v\": 1, \"ts\": \"2026-10-12T21:00:00\", \"date\": \"2026-10-12\", \"member\": \"Mats\", \"minutes\": \"inf\", \"practiced\": []\x7d\n```\nOVINGSLOGG_V1_END"⟩

/-- The decoded entry of `infComment`. -/
def infEntry : Json :=
  Json.obj [("v", Json.int 1), ("ts", Json.str "2026-10-12T21:00:00"),
    ("date", Json.str "2026-10-12"), ("member", Json.str "Mats"),
    ("minutes", Json.str "inf"), ("practiced", Json.arr [])]

/-! ## list_issue_comments: pagination

The transport is abstracted as a function from the query parameters
`per_page` and `page` of `requests.get` to either the decoded JSON list of
the response (`Except.ok`) or the status of an `HTTPError` raised by
`raise_for_status` (`Except.error`, which also stands for any other
transport failure).  The `while True` loop is modelled with a fuel bound;
`none` stands for the loop still running, which the theorem's hypotheses
(an eventually empty or failing page) rule out. -/
/-- The loop of `list_issue_comments`: request page after page with
`per_page=100`, starting from the given page, extending the accumulator,
until a page returns no items (`if not batch: break`) or a request fails
(the exception propagates, discarding the accumulator). -/
def listCommentsFuel (server : Nat → Nat → Except Nat (List GhComment)) :
    Nat → Nat → List GhComment → Option (Except Nat (List GhComment))
  | 0, _, _ => none
  | fuel + 1, page, acc =>
    match server 100 page with
    | Except.error e => some (Except.error e)
    | Except.ok batch =>
      if batch.isEmpty then some (Except.ok acc)
      else listCommentsFuel server fuel (page + 1) (acc ++ batch)

/-- Model of `list_issue_comments(issue_number)`: the loop starting at
page 1 with an empty accumulator. -/
def list_issue_comments (server : Nat → Nat → Except Nat (List GhComment))
    (fuel : Nat) : Option (Except Nat (List GhComment)) :=
  listCommentsFuel server fuel 1 []

/-! ## post_issue_comment, the TTL cache and the submit handler

The interactive layer is modelled as a state machine over the remote
thread and the `@st.cache_data(ttl=30)` cache of `load_log_df` (there is a
single cache key, the fixed `issue_number`).  A cached value is a pair of
the time it was stored and the rows it holds; it is valid while its age is
below 30 seconds.  `post_issue_comment` is `requests.post` followed by
`raise_for_status`, which raises exactly for status codes in
`[400, 600)`. -/
/-- The state of one session: the comments on the remote thread and the
cache of `load_log_df`. -/
structure AppState where
  thread : List GhComment
  cache : Option (Int × List LogRow)

/-- Model of a call to the cached `load_log_df`: a hit (cache present and
younger than the 30-second TTL) returns the cached rows without a remote
call; otherwise the body runs, fetching and decoding the thread — on
success the rows are stored with the current time and returned, while on
a raise `st.cache_data` stores nothing and the exception propagates, the
state left as it was (so the next call runs the body, and fetches,
again).  The `Bool` records whether a remote fetch happened. -/
def cached_load (now : Int) (s : AppState) :
    Except LoadErr (List LogRow) × AppState × Bool :=
  match s.cache with
  | some (t0, v) =>
    if now - t0 < 30 then (Except.ok v, s, false)
    else
      match load_log_rows s.thread with
      | Except.ok rows => (Except.ok rows, ⟨s.thread, some (now, rows)⟩, true)
      | Except.error err => (Except.error err, s, true)
  | none =>
    match load_log_rows s.thread with
    | Except.ok rows => (Except.ok rows, ⟨s.thread, some (now, rows)⟩, true)
    | Except.error err => (Except.error err, s, true)

/-- Model of `post_issue_comment`: `requests.post` followed by
`r.raise_for_status()`, which raises `requests.HTTPError` exactly for
response statuses in `[400, 600)`. -/
def post_issue_comment (status : Nat) : Except Nat Unit :=
  if 400 ≤ status ∧ status < 600 then Except.error status else Except.ok ()

/-- The message shown by the submit handler. -/
inductive SubmitMsg where
  | success : SubmitMsg
  | failure : SubmitMsg

deriving DecidableEq

/-- The submit handler of `src/app.py`: `post_issue_comment` with the
encoded entry; on success `st.success` is shown and `load_log_df.clear()`
empties the cache before the rerun; on `requests.HTTPError` the handler
shows `st.error` and changes nothing. -/
def submit_step (s : AppState) (entry : Json) (status : Nat) : AppState × SubmitMsg :=
  match post_issue_comment status with
  | Except.ok _ =>
    (⟨s.thread ++ [⟨some (encode_entry_as_comment entry)⟩], none⟩, SubmitMsg.success)
  | Except.error _ => (s, SubmitMsg.failure)

/-! ## Round trip: values -/
/-- What can follow a serialised value inside a serialised array or
object: a comma, a closing brace, a closing bracket, or nothing.  None of
these characters can extend a number, so a value parse stops exactly at
the boundary. -/
def FollowOk (rest : List Char) : Prop :=
  rest = [] ∨ (∃ r, rest = ',' :: r) ∨ (∃ r, rest = '\x7d' :: r) ∨ (∃ r, rest = ']' :: r)

/-- Fuel needed by `pVal` on the serialised form of a value (an upper
bound; fuel is a depth bound, not a linear resource). -/
def cost : Json → Nat
  | Json.arr xs => 2 * xs.length + 2
  | _ => 1

/-- A value that parses back from its own serialisation, with any
`FollowOk` continuation, at any sufficiently large fuel; its serialisation
moreover starts with a non-whitespace character. -/
def GoodVal (v : Json) : Prop :=
  (∀ (f : Nat) (rest : List Char), FollowOk rest →
    pVal (f + cost v) (dumpsVal v ++ rest) = some (v, rest))
  ∧ ∃ c cs, dumpsVal v = c :: cs ∧ isJsonWs c = false

/-- Fuel needed by `pMembers` on a serialised member list. -/
def mcost : List (String × Json) → Nat
  | [] => 0
  | (_, v) :: r => cost v + 1 + mcost r

/-! ## Basic structure of the extraction loop -/
/-- The accumulating loop is `filterMap` of the per-comment step. -/
theorem extractLoop_eq (cs : List GhComment) (acc : List Json) :
    extractLoop cs acc = acc ++ cs.filterMap decodeBlob := by
  induction cs generalizing acc with
  | nil => simp [extractLoop]
  | cons c rest ih =>
    rw [extractLoop]
    cases h : decodeBlob c with
    | none => simp [h, ih, List.filterMap_cons]
    | some j => simp [h, ih, List.filterMap_cons]

/-- `extract_entries_from_comments` is `filterMap decodeBlob`. -/
theorem extract_eq_filterMap (cs : List GhComment) :
    extract_entries_from_comments cs = cs.filterMap decodeBlob := by
  simpa using extractLoop_eq cs []

theorem length_filterMap_eq_countP (f : GhComment → Option Json) (l : List GhComment) :
    (l.filterMap f).length = l.countP (fun c => (f c).isSome) := by
  induction l with
  | nil => simp
  | cons c rest ih =>
    cases h : f c <;> simp [List.filterMap_cons, h, List.countP_cons, ih]

/-- C2.  For every input collection of blobs — empty strings, strings
without the marker, strings with the marker but invalid JSON between the
markers, strings with well-formed JSON of the wrong shape — the extraction
never raises (it is a total function, with the `json.JSONDecodeError` of a
bad region caught inside `decodeBlob`); a blob that does not yield a
well-formed marked JSON object is simply excluded from the result. -/
theorem claim_C2_robustness (pre post : List GhComment) (c : GhComment)
    (h : decodeBlob c = none) :
    extract_entries_from_comments (pre ++ c :: post)
      = extract_entries_from_comments (pre ++ post) := by
  simp [extract_eq_filterMap, List.filterMap_append, List.filterMap_cons, h]

/-- Witness for C2: a blob whose marked region is not valid JSON is dropped
from between a valid blob and an empty-string blob. -/
theorem claim_C2_witness :
    extract_entries_from_comments
      ([⟨some "OVINGSLOGG_V1_BEGIN\n```json\n\x7b\"v\": 1\x7d\n```\nOVINGSLOGG_V1_END"⟩]
        ++ GhComment.mk (some "OVINGSLOGG_V1_BEGIN\n```json\n\x7bnot json\x7d\n```\nOVINGSLOGG_V1_END")
          :: [⟨some ""⟩])
      = extract_entries_from_comments
          ([⟨some "OVINGSLOGG_V1_BEGIN\n```json\n\x7b\"v\": 1\x7d\n```\nOVINGSLOGG_V1_END"⟩]
            ++ [⟨some ""⟩]) :=
  claim_C2_robustness _ _ _ (by rfl)

/-- C3.  On N blobs of which exactly M carry a valid marked entry, the
extraction returns exactly M entries: it is `filterMap` of the per-blob
decode (so output order mirrors input order), its length counts the blobs
whose decode succeeds, and no deduplication happens — n copies of the same
blob produce n copies of its entry. -/
theorem claim_C3_multiplicity (comments : List GhComment) :
    extract_entries_from_comments comments = comments.filterMap decodeBlob
    ∧ (extract_entries_from_comments comments).length
        = comments.countP (fun c => (decodeBlob c).isSome)
    ∧ ∀ (c : GhComment) (j : Json) (n : Nat), decodeBlob c = some j →
        extract_entries_from_comments (List.replicate n c) = List.replicate n j := by
  refine ⟨extract_eq_filterMap comments, ?_, ?_⟩
  · rw [extract_eq_filterMap]
    exact length_filterMap_eq_countP _ _
  · intro c j n h
    rw [extract_eq_filterMap]
    induction n with
    | zero => simp
    | succ m ih => simp [List.replicate_succ, List.filterMap_cons, h, ih]

/-- Witness for C3: two copies of the same valid blob yield the entry
twice. -/
theorem claim_C3_witness :
    extract_entries_from_comments
      (List.replicate 2
        (GhComment.mk (some "OVINGSLOGG_V1_BEGIN\n```json\n\x7b\"v\": 1\x7d\n```\nOVINGSLOGG_V1_END")))
      = List.replicate 2 (Json.obj [("v", Json.int 1)]) :=
  (claim_C3_multiplicity []).2.2 _ _ 2 (by rfl)

/-- C10.  The extraction performs no semantic validation: whenever the
marker-delimited region of a blob parses as a JSON object — empty, missing
keys, member outside the roster, minutes outside the option set — that
object is included unchanged in the result. -/
theorem claim_C10_no_validation (c : GhComment) (raw : List Char) (j : Json)
    (hsearch : searchMarked (commentBody c).toList = some raw)
    (hparse : json_loads (String.mk raw) = some j) :
    extract_entries_from_comments [c] = [j] := by
  rw [extract_eq_filterMap]
  simp only [String.toList] at hsearch
  simp [List.filterMap_cons, decodeBlob, String.toList, hsearch, hparse]

/-- Witness for C10: an object with a member outside the roster, minutes
outside the option set, and no other keys is returned unchanged. -/
theorem claim_C10_witness :
    extract_entries_from_comments
      [⟨some "OVINGSLOGG_V1_BEGIN\n```json\n\x7b\"member\": \"Ingen\", \"minutes\": 999\x7d\n```\nOVINGSLOGG_V1_END"⟩]
      = [Json.obj [("member", Json.str "Ingen"), ("minutes", Json.int 999)]] :=
  claim_C10_no_validation _
    ("\x7b\"member\": \"Ingen\", \"minutes\": 999\x7d".toList) _ (by rfl) (by rfl)

/-- Unfolding of `load_log_rows` into the table-building step. -/
theorem load_log_rows_eq (comments : List GhComment) :
    load_log_rows comments = load_log_df_entries (extract_entries_from_comments comments) :=
  rfl

/-- When the table builds successfully, no cell is a container, no cell is
uncastable, and the rows are exactly the entries with their coerced
minutes values, in order. -/
theorem load_entries_ok (entries : List Json) (rows : List LogRow)
    (h : load_log_df_entries entries = Except.ok rows) :
    (entries.map minutesCell).any isBadCell = false
    ∧ (entries.map minutesCell).any cellUncastable = false
    ∧ rows = entries.map (fun j => ⟨j, cellValue (minutesCell j)⟩) := by
  unfold load_log_df_entries at h
  split at h
  next he =>
    have hE : entries = [] := by simpa using he
    subst hE
    injection h with h2
    exact ⟨rfl, rfl, h2.symm⟩
  next =>
    split at h
    next => exact Except.noConfusion h
    next =>
      split at h
      next => exact Except.noConfusion h
      next =>
        split at h
        next => exact Except.noConfusion h
        next =>
          split at h
          next => exact Except.noConfusion h
          next hbad =>
            split at h
            next => exact Except.noConfusion h
            next hcast =>
              injection h with h2
              exact ⟨by simpa using hbad, by simpa using hcast, h2.symm⟩

/-- A row whose `member` field compares equal to a name has the `member`
key present. -/
theorem memberField_isSome (j : Json) (name : String)
    (h : memberField j = some name) : (jsonGet j "member").isSome = true := by
  unfold memberField at h
  cases hg : jsonGet j "member" with
  | none => rw [hg] at h; simp at h
  | some v => rfl

/-- Every duration in the fixed option set is finite and castable by
`astype(int)`. -/
theorem minutes_castable : ∀ m ∈ MINUTES, cellUncastable (PdCell.fin m) = false := by
  decide

/-- C8.  Corrected.  The spec claims that a `minutes` field of the wrong
shape is coerced where possible and otherwise becomes 0, with the entry
still appearing in the table.  That holds only when `load_log_df` returns
at all: on a successfully built table, a decoded entry whose `minutes` is
a string appears as a row carrying the parsed value, 0 for non-numeric
text.  But a string that parses to a non-finite float (such as `"inf"`)
makes `astype(int)` raise, so the whole load fails and no table exists —
see the counterexample. -/
theorem claim_C8_minutes_coercion (comments : List GhComment) (rows : List LogRow)
    (j : Json) (s : String)
    (hload : load_log_rows comments = Except.ok rows)
    (hmem : j ∈ extract_entries_from_comments comments)
    (hfield : jsonGet j "minutes" = some (Json.str s)) :
    (pdStrCell s = PdCell.nan → (⟨j, 0⟩ : LogRow) ∈ rows)
    ∧ ∀ n : Int, pdStrCell s = PdCell.fin n → (⟨j, n⟩ : LogRow) ∈ rows := by
  rw [load_log_rows_eq] at hload
  obtain ⟨-, -, hrows⟩ := load_entries_ok _ rows hload
  have hcell : minutesCell j = pdStrCell s := by
    unfold minutesCell
    rw [hfield]
    rfl
  constructor
  · intro hnan
    rw [hrows]
    rw [show (⟨j, 0⟩ : LogRow) = ⟨j, cellValue (minutesCell j)⟩ from by
      rw [hcell, hnan]
      rfl]
    exact List.mem_map_of_mem _ hmem
  · intro n hn
    rw [hrows]
    rw [show (⟨j, n⟩ : LogRow) = ⟨j, cellValue (minutesCell j)⟩ from by
      rw [hcell, hn]
      rfl]
    exact List.mem_map_of_mem _ hmem

/-- Witness for C8: in a successfully loading log, minutes given as the
non-numeric text `"tretti"` become 0 while the entry stays in the
table. -/
theorem claim_C8_witness :
    (pdStrCell "tretti" = PdCell.nan →
      (⟨trettiEntry, 0⟩ : LogRow) ∈ ([⟨trettiEntry, 0⟩] : List LogRow))
    ∧ ∀ n : Int, pdStrCell "tretti" = PdCell.fin n →
      (⟨trettiEntry, n⟩ : LogRow) ∈ ([⟨trettiEntry, 0⟩] : List LogRow) :=
  claim_C8_minutes_coercion [trettiComment] [⟨trettiEntry, 0⟩] trettiEntry "tretti"
    (by rfl)
    (by rw [show extract_entries_from_comments [trettiComment] = [trettiEntry] from rfl]
        exact List.Mem.head _)
    (by rfl)

/-- Counterexample refuting the literal C8: an entry with every key
present whose `minutes` is the text `"inf"` decodes fine, but
`pd.to_numeric` parses `"inf"` to an infinite float that `fillna(0)` does
not touch, `astype(int)` raises on it, and the whole load fails — the
entry appears in no table, instead of appearing with minutes 0. -/
theorem claim_C8_counterexample :
    extract_entries_from_comments [infComment] = [infEntry]
    ∧ jsonGet infEntry "minutes" = some (Json.str "inf")
    ∧ pdStrCell "inf" = PdCell.inf
    ∧ load_log_rows [infComment] = Except.error LoadErr.intCastError :=
  ⟨rfl, rfl, rfl, rfl⟩

/-- C9.  For a log whose table builds successfully (with the `practiced`
column present, as every well-formed entry provides) and whose rows split
into rows of member A totalling 20 minutes and rows of member B totalling
30 minutes, `render_member_log` reports total minutes 20 for A and 30 for
B, the total over both members is 50, and the descending leaderboard
places B above A. -/
theorem claim_C9_aggregation (comments : List GhComment) (A B : String)
    (ra rb : List LogRow)
    (hAB : A ≠ B)
    (hload : load_log_rows comments = Except.ok (ra ++ rb))
    (hpract : hasColumn (extract_entries_from_comments comments) "practiced" = true)
    (ha : ∀ r ∈ ra, memberField r.entry = some A)
    (hb : ∀ r ∈ rb, memberField r.entry = some B)
    (hra : ra ≠ []) (hrb : rb ≠ [])
    (hsumA : (ra.map LogRow.minutes).sum = 20)
    (hsumB : (rb.map LogRow.minutes).sum = 30) :
    render_member_log comments A = Except.ok (some (20, ra.length))
    ∧ render_member_log comments B = Except.ok (some (30, rb.length))
    ∧ total_minutes_over (ra ++ rb) [A, B] = 50
    ∧ leaderboard (ra ++ rb) [A, B] = [(B, 30), (A, 20)] := by
  have hload' := hload
  rw [load_log_rows_eq] at hload'
  obtain ⟨-, -, hrows⟩ := load_entries_ok _ _ hload'
  have hsubmem : ∀ r ∈ ra ++ rb, r.entry ∈ extract_entries_from_comments comments := by
    intro r hr
    rw [hrows, List.mem_map] at hr
    obtain ⟨j, hj, hjr⟩ := hr
    rw [← hjr]
    exact hj
  have hcolmem : hasColumn (extract_entries_from_comments comments) "member" = true := by
    obtain ⟨r0, hr0⟩ := List.exists_mem_of_ne_nil ra hra
    unfold hasColumn
    rw [List.any_eq_true]
    exact ⟨r0.entry, hsubmem r0 (List.mem_append_left _ hr0),
      memberField_isSome r0.entry A (ha r0 hr0)⟩
  have hfA : member_rows (ra ++ rb) A = ra := by
    unfold member_rows
    rw [List.filter_append]
    have h1 : ra.filter (fun r => memberField r.entry == some A) = ra := by
      apply List.filter_eq_self.mpr
      intro r hr
      rw [ha r hr]
      simp
    have h2 : rb.filter (fun r => memberField r.entry == some A) = [] := by
      apply List.filter_eq_nil_iff.mpr
      intro r hr
      rw [hb r hr]
      simp only [beq_iff_eq, Option.some.injEq]
      exact fun hh => hAB hh.symm
    rw [h1, h2, List.append_nil]
  have hfB : member_rows (ra ++ rb) B = rb := by
    unfold member_rows
    rw [List.filter_append]
    have h1 : rb.filter (fun r => memberField r.entry == some B) = rb := by
      apply List.filter_eq_self.mpr
      intro r hr
      rw [hb r hr]
      simp
    have h2 : ra.filter (fun r => memberField r.entry == some B) = [] := by
      apply List.filter_eq_nil_iff.mpr
      intro r hr
      rw [ha r hr]
      simp only [beq_iff_eq, Option.some.injEq]
      exact fun hh => hAB hh
    rw [h1, h2, List.nil_append]
  have hraE : ra.isEmpty = false := by
    cases ra with
    | nil => exact absurd rfl hra
    | cons x l => rfl
  have hrbE : rb.isEmpty = false := by
    cases rb with
    | nil => exact absurd rfl hrb
    | cons x l => rfl
  have hguard : ¬((extract_entries_from_comments comments).isEmpty = false
      ∧ hasColumn (extract_entries_from_comments comments) "member" = false) := by
    intro hcon
    rw [hcolmem] at hcon
    exact absurd hcon.2 (by simp)
  have hrA : render_member_log comments A = Except.ok (some (20, ra.length)) := by
    unfold render_member_log
    rw [hload]
    dsimp only
    rw [if_neg hguard, hfA, if_neg (by simp [hraE]), if_neg (by simp [hpract])]
    unfold member_total_minutes member_session_count
    rw [hfA, hsumA]
  have hrB : render_member_log comments B = Except.ok (some (30, rb.length)) := by
    unfold render_member_log
    rw [hload]
    dsimp only
    rw [if_neg hguard, hfB, if_neg (by simp [hrbE]), if_neg (by simp [hpract])]
    unfold member_total_minutes member_session_count
    rw [hfB, hsumB]
  have htA : member_total_minutes (ra ++ rb) A = 20 := by
    unfold member_total_minutes
    rw [hfA, hsumA]
  have htB : member_total_minutes (ra ++ rb) B = 30 := by
    unfold member_total_minutes
    rw [hfB, hsumB]
  refine ⟨hrA, hrB, ?_, ?_⟩
  · unfold total_minutes_over
    simp [htA, htB]
  · unfold leaderboard
    simp only [List.map_cons, List.map_nil, htA, htB, sortDesc, insertDesc]
    norm_num

/-- Witness for C9: a concrete successfully loading log with one full
20-minute entry for Mats and one full 30-minute entry for Birk. -/
theorem claim_C9_witness :
    render_member_log [matsComment, birkComment] "Mats" = Except.ok (some (20, 1))
    ∧ render_member_log [matsComment, birkComment] "Birk" = Except.ok (some (30, 1))
    ∧ total_minutes_over
        ([(⟨matsEntry, 20⟩ : LogRow)] ++ [(⟨birkEntry, 30⟩ : LogRow)])
        ["Mats", "Birk"] = 50
    ∧ leaderboard
        ([(⟨matsEntry, 20⟩ : LogRow)] ++ [(⟨birkEntry, 30⟩ : LogRow)])
        ["Mats", "Birk"] = [("Birk", 30), ("Mats", 20)] :=
  claim_C9_aggregation [matsComment, birkComment] "Mats" "Birk"
    [⟨matsEntry, 20⟩] [⟨birkEntry, 30⟩]
    (by decide)
    (by rfl)
    (by rfl)
    (by intro r hr; rw [List.mem_singleton] at hr; subst hr; rfl)
    (by intro r hr; rw [List.mem_singleton] at hr; subst hr; rfl)
    (List.cons_ne_nil _ _) (List.cons_ne_nil _ _)
    (by rfl) (by rfl)

theorem listCommentsFuel_ok (server : Nat → Nat → Except Nat (List GhComment)) :
    ∀ (ps : List (List GhComment)) (page : Nat) (acc : List GhComment) (fuel : Nat),
      ps.length + 1 ≤ fuel →
      (∀ i (h : i < ps.length),
        server 100 (page + i) = Except.ok (ps.get ⟨i, h⟩) ∧ ps.get ⟨i, h⟩ ≠ []) →
      server 100 (page + ps.length) = Except.ok [] →
      listCommentsFuel server fuel page acc = some (Except.ok (acc ++ ps.flatten)) := by
  intro ps
  induction ps with
  | nil =>
    intro page acc fuel hfuel _ hlast
    obtain ⟨f, rfl⟩ : ∃ f, fuel = f + 1 := ⟨fuel - 1, by omega⟩
    rw [listCommentsFuel]
    simp only [List.length_nil, Nat.add_zero] at hlast
    rw [hlast]
    simp
  | cons p rest ih =>
    intro page acc fuel hfuel hpages hlast
    obtain ⟨f, rfl⟩ : ∃ f, fuel = f + 1 := ⟨fuel - 1, by omega⟩
    rw [listCommentsFuel]
    have h0 := hpages 0 (by simp)
    simp only [Nat.add_zero, List.get] at h0
    simp only [h0.1]
    have hne : p.isEmpty = false := by
      cases p with
      | nil => exact absurd rfl h0.2
      | cons a r => rfl
    simp only [hne, Bool.false_eq_true, if_false]
    have := ih (page + 1) (acc ++ p) f (by simpa using Nat.lt_of_succ_le hfuel)
      (fun i h => by
        have := hpages (i + 1) (by simpa using Nat.succ_lt_succ h)
        simpa [Nat.add_assoc, Nat.add_comm 1 i] using this)
      (by
        have : page + 1 + rest.length = page + (rest.length + 1) := by omega
        rw [this]
        simpa [Nat.add_comm rest.length 1] using hlast)
    rw [this]
    simp [List.flatten_cons, List.append_assoc]

theorem listCommentsFuel_err (server : Nat → Nat → Except Nat (List GhComment)) :
    ∀ (ps : List (List GhComment)) (page : Nat) (acc : List GhComment) (fuel : Nat)
      (e : Nat),
      ps.length + 1 ≤ fuel →
      (∀ i (h : i < ps.length),
        server 100 (page + i) = Except.ok (ps.get ⟨i, h⟩) ∧ ps.get ⟨i, h⟩ ≠ []) →
      server 100 (page + ps.length) = Except.error e →
      listCommentsFuel server fuel page acc = some (Except.error e) := by
  intro ps
  induction ps with
  | nil =>
    intro page acc fuel e hfuel _ hlast
    obtain ⟨f, rfl⟩ : ∃ f, fuel = f + 1 := ⟨fuel - 1, by omega⟩
    rw [listCommentsFuel]
    simp only [List.length_nil, Nat.add_zero] at hlast
    rw [hlast]
  | cons p rest ih =>
    intro page acc fuel e hfuel hpages hlast
    obtain ⟨f, rfl⟩ : ∃ f, fuel = f + 1 := ⟨fuel - 1, by omega⟩
    rw [listCommentsFuel]
    have h0 := hpages 0 (by simp)
    simp only [Nat.add_zero, List.get] at h0
    simp only [h0.1]
    have hne : p.isEmpty = false := by
      cases p with
      | nil => exact absurd rfl h0.2
      | cons a r => rfl
    simp only [hne, Bool.false_eq_true, if_false]
    exact ih (page + 1) (acc ++ p) f e (by simpa using Nat.lt_of_succ_le hfuel)
      (fun i h => by
        have := hpages (i + 1) (by simpa using Nat.succ_lt_succ h)
        simpa [Nat.add_assoc, Nat.add_comm 1 i] using this)
      (by
        have : page + 1 + rest.length = page + (rest.length + 1) := by omega
        rw [this]
        simpa [Nat.add_comm rest.length 1] using hlast)

/-- C5.  `list_issue_comments` requests sequential pages of fixed size 100
starting at page 1 and stops at the first empty page, returning the pages
concatenated in thread order; if any page request fails, the transport
error propagates and no partial result is returned. -/
theorem claim_C5_pagination (server : Nat → Nat → Except Nat (List GhComment))
    (ps : List (List GhComment)) (fuel : Nat)
    (hfuel : ps.length + 1 ≤ fuel)
    (hpages : ∀ i (h : i < ps.length),
      server 100 (1 + i) = Except.ok (ps.get ⟨i, h⟩) ∧ ps.get ⟨i, h⟩ ≠ []) :
    (server 100 (1 + ps.length) = Except.ok [] →
      list_issue_comments server fuel = some (Except.ok ps.flatten))
    ∧ (∀ e : Nat, server 100 (1 + ps.length) = Except.error e →
      list_issue_comments server fuel = some (Except.error e)) := by
  constructor
  · intro hlast
    simpa using listCommentsFuel_ok server ps 1 [] fuel hfuel hpages hlast
  · intro e hlast
    simpa using listCommentsFuel_err server ps 1 [] fuel e hfuel hpages hlast

/-- Witness for C5: a transport with two nonempty pages and an empty third
page yields the two pages concatenated. -/
theorem claim_C5_witness :
    list_issue_comments
      (fun _ page => if page = 1 then Except.ok [⟨some "a"⟩]
        else if page = 2 then Except.ok [⟨some "b"⟩] else Except.ok [])
      3 = some (Except.ok [⟨some "a"⟩, ⟨some "b"⟩]) := by
  have h := (claim_C5_pagination
    (fun _ page => if page = 1 then Except.ok [⟨some "a"⟩]
      else if page = 2 then Except.ok [⟨some "b"⟩] else Except.ok [])
    [[⟨some "a"⟩], [⟨some "b"⟩]] 3 (by decide)
    (by decide)).1 (by decide)
  simpa using h

/-- C7.  On any non-success HTTP response (a 4xx or 5xx status),
`post_issue_comment` propagates the transport error with no retry; the
submit handler then shows a failure message and leaves the state — thread
and cache, hence the log view — exactly as before the submission. -/
theorem claim_C7_append_failure (s : AppState) (entry : Json) (status : Nat)
    (h1 : 400 ≤ status) (h2 : status < 600) :
    post_issue_comment status = Except.error status
    ∧ submit_step s entry status = (s, SubmitMsg.failure)
    ∧ ∀ now : Int, cached_load now (submit_step s entry status).1 = cached_load now s := by
  have hpost : post_issue_comment status = Except.error status := by
    simp [post_issue_comment, h1, h2]
  have hsub : submit_step s entry status = (s, SubmitMsg.failure) := by
    rw [submit_step, hpost]
  exact ⟨hpost, hsub, fun now => by rw [hsub]⟩

/-- Witness for C7: a 500 response leaves an empty-thread state
untouched. -/
theorem claim_C7_witness :
    post_issue_comment 500 = Except.error 500
    ∧ submit_step ⟨[], none⟩ Json.null 500 = (⟨[], none⟩, SubmitMsg.failure)
    ∧ ∀ now : Int,
      cached_load now (submit_step ⟨[], none⟩ Json.null 500).1
        = cached_load now ⟨[], none⟩ :=
  claim_C7_append_failure ⟨[], none⟩ Json.null 500 (by decide) (by decide)

/-! ## Round trip: helper lemmas on characters and strings -/
theorem char_ofNat_toNat (c : Char) : Char.ofNat c.toNat = c := by
  have h : c.toNat.isValidChar := c.valid
  unfold Char.ofNat
  rw [dif_pos h]
  unfold Char.ofNatAux
  apply Char.ext
  refine UInt32.toNat.inj ?_
  rfl

theorem toList_mk (l : List Char) : (String.mk l).toList = l := rfl

theorem mk_toList (s : String) : String.mk s.toList = s := rfl

theorem length_mk (l : List Char) : (String.mk l).length = l.length := rfl

theorem skipJsonWs_cons_not (c : Char) (l : List Char) (h : isJsonWs c = false) :
    skipJsonWs (c :: l) = c :: l := by
  simp [skipJsonWs, List.dropWhile, h]

theorem skipJsonWs_cons_ws (c : Char) (l : List Char) (h : isJsonWs c = true) :
    skipJsonWs (c :: l) = skipJsonWs l := by
  simp [skipJsonWs, List.dropWhile, h]

theorem skipRegexWs_cons_not (c : Char) (l : List Char) (h : isPyStrSpace c = false) :
    skipRegexWs (c :: l) = c :: l := by
  simp [skipRegexWs, List.dropWhile, h]

theorem skipRegexWs_cons_ws (c : Char) (l : List Char) (h : isPyStrSpace c = true) :
    skipRegexWs (c :: l) = skipRegexWs l := by
  simp [skipRegexWs, List.dropWhile, h]

theorem dropLit_self (p rest : List Char) : dropLit p (p ++ rest) = some rest := by
  induction p with
  | nil => rfl
  | cons c cs ih => simp [dropLit, ih]

theorem plainChar_spec (c : Char) (h : plainChar c = true) :
    c ≠ '"' ∧ c ≠ '\\' ∧ 32 ≤ c.toNat ∧ c ≠ '\x7d' := by
  simp only [plainChar, Bool.and_eq_true, decide_eq_true_eq, bne_iff_ne, ne_eq] at h
  exact ⟨h.1.1.1, h.1.1.2, h.1.2, h.2⟩

theorem escChar_plain (c : Char) (h : plainChar c = true) : escChar c = [c] := by
  obtain ⟨h1, h2, h3, _⟩ := plainChar_spec c h
  have e1 : c ≠ '\n' := by intro e; subst e; exact absurd h3 (by decide)
  have e2 : c ≠ '\r' := by intro e; subst e; exact absurd h3 (by decide)
  have e3 : c ≠ '\t' := by intro e; subst e; exact absurd h3 (by decide)
  have e4 : c ≠ '\x08' := by intro e; subst e; exact absurd h3 (by decide)
  have e5 : c ≠ '\x0c' := by intro e; subst e; exact absurd h3 (by decide)
  rw [escChar, if_neg h1, if_neg h2, if_neg e1, if_neg e2, if_neg e3, if_neg e4,
    if_neg e5, if_neg (by omega : ¬ c.toNat < 32)]

theorem escString_plain (s : List Char) (h : ∀ c ∈ s, plainChar c = true) :
    escString s = s := by
  induction s with
  | nil => rfl
  | cons c cs ih =>
    rw [escString, escChar_plain c (h c (List.mem_cons_self c cs)),
      ih (fun x hx => h x (List.mem_cons_of_mem c hx))]
    rfl

theorem pStrAux_plain (s : List Char) (h : ∀ c ∈ s, plainChar c = true)
    (rest : List Char) (acc : List Nat) :
    pStrAux (s ++ '"' :: rest) acc
      = some (String.mk (acc.reverse.map Char.ofNat ++ s), rest) := by
  induction s generalizing acc with
  | nil =>
    simp only [List.nil_append]
    rw [pStrAux.eq_def]
    simp
  | cons c cs ih =>
    obtain ⟨h1, h2, h3, _⟩ := plainChar_spec c (h c (List.mem_cons_self c cs))
    rw [List.cons_append, pStrAux.eq_def]
    dsimp only
    rw [if_neg h1, if_neg h2, if_neg (by omega : ¬ c.toNat < 32)]
    rw [ih (fun x hx => h x (List.mem_cons_of_mem c hx)) (c.toNat :: acc)]
    simp [char_ofNat_toNat]

theorem pStr_plain (s : List Char) (h : ∀ c ∈ s, plainChar c = true) (rest : List Char) :
    pStr (s ++ '"' :: rest) = some (String.mk s, rest) := by
  rw [pStr, pStrAux_plain s h rest []]
  rfl

theorem followOk_digit_stop (rest : List Char) (hfo : FollowOk rest) :
    rest.takeWhile Char.isDigit = [] ∧ rest.dropWhile Char.isDigit = rest
    ∧ pFrac rest = none ∧ pExp rest = none := by
  rcases hfo with rfl | ⟨r, rfl⟩ | ⟨r, rfl⟩ | ⟨r, rfl⟩ <;> exact ⟨rfl, rfl, rfl, rfl⟩

theorem pVal_succ (f : Nat) (cs : List Char) :
    pVal (f + 1) cs = pValStep (pMembers f) (pElems f) cs := rfl

theorem pValStep_cons
    (pMem : List Char → List (String × Json) → Option (List (String × Json) × List Char))
    (pElm : List Char → Option (List Json × List Char))
    (c : Char) (cs' : List Char) :
    pValStep pMem pElm (c :: cs') =
      (if c = '"' then
        match pStr cs' with
        | some (s, r) => some (Json.str s, r)
        | none => none
      else if c = '\x7b' then
        match skipJsonWs cs' with
        | c2 :: r2 =>
          if c2 = '\x7d' then some (Json.obj [], r2)
          else
            match pMem (c2 :: r2) [] with
            | some (ms, r) => some (Json.obj ms, r)
            | none => none
        | [] => none
      else if c = '[' then
        match skipJsonWs cs' with
        | c2 :: r2 =>
          if c2 = ']' then some (Json.arr [], r2)
          else
            match pElm (c2 :: r2) with
            | some (vs, r) => some (Json.arr vs, r)
            | none => none
        | [] => none
      else if c = 't' then
        match cs' with
        | 'r' :: 'u' :: 'e' :: r => some (Json.bool true, r)
        | _ => none
      else if c = 'f' then
        match cs' with
        | 'a' :: 'l' :: 's' :: 'e' :: r => some (Json.bool false, r)
        | _ => none
      else if c = 'n' then
        match cs' with
        | 'u' :: 'l' :: 'l' :: r => some (Json.null, r)
        | _ => none
      else if c = 'N' then
        match cs' with
        | 'a' :: 'N' :: r => some (Json.float "NaN", r)
        | _ => none
      else if c = 'I' then
        match cs' with
        | 'n' :: 'f' :: 'i' :: 'n' :: 'i' :: 't' :: 'y' :: r =>
          some (Json.float "Infinity", r)
        | _ => none
      else if c = '-' then
        match cs' with
        | 'I' :: 'n' :: 'f' :: 'i' :: 'n' :: 'i' :: 't' :: 'y' :: r =>
          some (Json.float "-Infinity", r)
        | _ => pNum (c :: cs')
      else pNum (c :: cs')) := rfl

theorem pElems_succ (f : Nat) (cs : List Char) :
    pElems (f + 1) cs = pElemsStep (pVal f) (pElems f) cs := rfl

theorem pMembers_succ (f : Nat) (cs : List Char) (acc : List (String × Json)) :
    pMembers (f + 1) cs acc = pMembersStep (pVal f) (pMembers f) cs acc := rfl

theorem goodVal_str (s : String) (h : plainStr s = true) : GoodVal (Json.str s) := by
  have hall : ∀ c ∈ s.toList, plainChar c = true := by
    intro c hc
    exact List.all_eq_true.mp h c hc
  constructor
  · intro f rest hfo
    have hshape : dumpsVal (Json.str s) ++ rest = '"' :: (escString s.toList ++ '"' :: rest) := by
      rw [dumpsVal]
      simp [List.append_assoc]
    rw [hshape, escString_plain s.toList hall]
    simp only [cost]
    rw [pVal_succ, pValStep_cons]
    rw [if_pos rfl, pStr_plain s.toList hall rest]
    rw [mk_toList]
  · exact ⟨'"', escString s.toList ++ ['"'], by rw [dumpsVal], by decide⟩

theorem pVal_digit (c : Char) (cs : List Char) (f : Nat) (h : c.isDigit = true) :
    pVal (f + 1) (c :: cs) = pNum (c :: cs) := by
  have ne : ∀ x : Char, x.isDigit = false → c ≠ x := by
    intro x hx e
    subst e
    rw [h] at hx
    exact absurd hx (by decide)
  rw [pVal_succ, pValStep_cons]
  rw [if_neg (ne _ (by decide)), if_neg (ne _ (by decide)), if_neg (ne _ (by decide)),
    if_neg (ne _ (by decide)), if_neg (ne _ (by decide)), if_neg (ne _ (by decide)),
    if_neg (ne _ (by decide)), if_neg (ne _ (by decide)), if_neg (ne _ (by decide))]

theorem takeWhile_all_append (p : Char → Bool) (ds rest : List Char)
    (h : ∀ c ∈ ds, p c = true) :
    (ds ++ rest).takeWhile p = ds ++ rest.takeWhile p := by
  induction ds with
  | nil => rfl
  | cons c cs ih =>
    rw [List.cons_append, List.takeWhile_cons, h c (List.mem_cons_self c cs)]
    rw [ih (fun x hx => h x (List.mem_cons_of_mem c hx))]
    rfl

theorem dropWhile_all_append (p : Char → Bool) (ds rest : List Char)
    (h : ∀ c ∈ ds, p c = true) :
    (ds ++ rest).dropWhile p = rest.dropWhile p := by
  induction ds with
  | nil => rfl
  | cons c cs ih =>
    rw [List.cons_append, List.dropWhile_cons, h c (List.mem_cons_self c cs)]
    rw [ih (fun x hx => h x (List.mem_cons_of_mem c hx))]
    simp

theorem pNum_digits (d1 : Char) (ds rest : List Char)
    (h1 : d1.isDigit = true) (hnz : d1 ≠ '0')
    (hds : ∀ c ∈ ds, c.isDigit = true)
    (hfo : FollowOk rest) :
    pNum (d1 :: (ds ++ rest)) = some (Json.int (Int.ofNat (digitsVal (d1 :: ds))), rest) := by
  obtain ⟨ht, hd, hf2, he⟩ := followOk_digit_stop rest hfo
  have hne : d1 ≠ '-' := fun e => by subst e; exact absurd h1 (by decide)
  have htake : (ds ++ rest).takeWhile Char.isDigit = ds := by
    rw [takeWhile_all_append Char.isDigit ds rest hds, ht, List.append_nil]
  have hdrop : (ds ++ rest).dropWhile Char.isDigit = rest := by
    rw [dropWhile_all_append Char.isDigit ds rest hds, hd]
  rw [pNum]
  simp only [if_neg hne]
  rw [pIntPart, if_neg hnz, if_pos h1, htake, hdrop]
  simp only [hf2, he]
  simp

theorem goodVal_int_digits (n : Int) (d1 : Char) (ds : List Char)
    (hdv : dumpsVal (Json.int n) = d1 :: ds)
    (h1 : d1.isDigit = true) (hnz : d1 ≠ '0')
    (hds : ∀ c ∈ ds, c.isDigit = true)
    (hval : Int.ofNat (digitsVal (d1 :: ds)) = n) :
    GoodVal (Json.int n) := by
  constructor
  · intro f rest hfo
    simp only [cost, hdv]
    rw [List.cons_append, pVal_digit _ _ f h1, pNum_digits d1 ds rest h1 hnz hds hfo, hval]
  · refine ⟨d1, ds, hdv, ?_⟩
    have ne : ∀ x : Char, x.isDigit = false → d1 ≠ x := by
      intro x hx e
      subst e
      rw [h1] at hx
      exact absurd hx (by decide)
    simp only [isJsonWs, Bool.or_eq_false_iff, decide_eq_false_iff_not]
    exact ⟨⟨⟨ne ' ' (by decide), ne '\t' (by decide)⟩, ne '\n' (by decide)⟩, ne '\r' (by decide)⟩

theorem goodVal_int_one : GoodVal (Json.int 1) :=
  goodVal_int_digits 1 '1' [] rfl (by decide) (by decide) (by decide) (by decide)

theorem goodVal_minutes (m : Int) (hm : m ∈ MINUTES) : GoodVal (Json.int m) := by
  simp only [MINUTES, List.mem_cons, List.not_mem_nil, or_false] at hm
  rcases hm with rfl | rfl | rfl | rfl | rfl | rfl | rfl | rfl | rfl | rfl
  · exact goodVal_int_digits _ '1' ['0'] rfl (by decide) (by decide) (by decide) (by decide)
  · exact goodVal_int_digits _ '1' ['5'] rfl (by decide) (by decide) (by decide) (by decide)
  · exact goodVal_int_digits _ '2' ['0'] rfl (by decide) (by decide) (by decide) (by decide)
  · exact goodVal_int_digits _ '2' ['5'] rfl (by decide) (by decide) (by decide) (by decide)
  · exact goodVal_int_digits _ '3' ['0'] rfl (by decide) (by decide) (by decide) (by decide)
  · exact goodVal_int_digits _ '4' ['0'] rfl (by decide) (by decide) (by decide) (by decide)
  · exact goodVal_int_digits _ '4' ['5'] rfl (by decide) (by decide) (by decide) (by decide)
  · exact goodVal_int_digits _ '6' ['0'] rfl (by decide) (by decide) (by decide) (by decide)
  · exact goodVal_int_digits _ '7' ['5'] rfl (by decide) (by decide) (by decide) (by decide)
  · exact goodVal_int_digits _ '9' ['0'] rfl (by decide) (by decide) (by decide) (by decide)

/-! ## Round trip: arrays, object members and whole objects -/
theorem dumpsElems_str_head (y : String) (zs : List Json) :
    ∃ tail, dumpsElems (Json.str y :: zs) = '"' :: tail := by
  cases zs with
  | nil => exact ⟨escString y.toList ++ ['"'], rfl⟩
  | cons z zs' =>
    refine ⟨(escString y.toList ++ ['"']) ++ ',' :: ' ' :: dumpsElems (z :: zs'), ?_⟩
    rw [dumpsElems, dumpsVal]
    rfl

theorem pElems_strings (xs : List String) :
    ∀ (f : Nat) (rest : List Char), xs ≠ [] → (∀ x ∈ xs, plainStr x = true) →
    pElems (f + 2 * xs.length) (dumpsElems (xs.map Json.str) ++ ']' :: rest)
      = some (xs.map Json.str, rest) := by
  induction xs with
  | nil => intro f rest hne _; exact absurd rfl hne
  | cons x xs' ih =>
    intro f rest _ hplain
    have hx := hplain x (List.mem_cons_self x xs')
    cases xs' with
    | nil =>
      have hfe : f + 2 * ([x] : List String).length = (f + 1) + 1 := by
        simp [List.length]
      rw [hfe, pElems_succ, pElemsStep]
      have hv := (goodVal_str x hx).1 f (']' :: rest)
        (Or.inr (Or.inr (Or.inr ⟨rest, rfl⟩)))
      simp only [cost] at hv
      have hmap : dumpsElems ([x].map Json.str) = dumpsVal (Json.str x) := rfl
      rw [hmap, hv]
      dsimp only
      rw [skipJsonWs_cons_not ']' rest (by decide)]
      dsimp only
      rw [if_neg (by decide : ¬ (']' = ',')), if_pos rfl]
      rfl
    | cons y t =>
      have hfe : f + 2 * (x :: y :: t : List String).length
          = (f + 2 * (y :: t : List String).length + 1) + 1 := by
        simp [List.length]
        ring
      rw [hfe, pElems_succ, pElemsStep]
      have hshape : dumpsElems ((x :: y :: t).map Json.str) ++ ']' :: rest
          = dumpsVal (Json.str x)
            ++ (',' :: ' ' :: (dumpsElems ((y :: t).map Json.str) ++ ']' :: rest)) := by
        simp only [List.map_cons, dumpsElems]
        simp [List.append_assoc]
      rw [hshape]
      have hv := (goodVal_str x hx).1 (f + 2 * (y :: t : List String).length)
        (',' :: ' ' :: (dumpsElems ((y :: t).map Json.str) ++ ']' :: rest))
        (Or.inr (Or.inl ⟨_, rfl⟩))
      simp only [cost] at hv
      rw [hv]
      dsimp only
      rw [skipJsonWs_cons_not ',' _ (by decide)]
      dsimp only
      rw [if_pos rfl]
      obtain ⟨tail, htail⟩ := dumpsElems_str_head y (t.map Json.str)
      have hskip : skipJsonWs (' ' :: (dumpsElems ((y :: t).map Json.str) ++ ']' :: rest))
          = dumpsElems ((y :: t).map Json.str) ++ ']' :: rest := by
        rw [skipJsonWs_cons_ws ' ' _ (by decide)]
        rw [List.map_cons, htail, List.cons_append, skipJsonWs_cons_not '"' _ (by decide)]
      rw [hskip]
      rw [show f + 2 * (y :: t : List String).length + 1
          = (f + 1) + 2 * (y :: t : List String).length from by ring]
      rw [ih (f + 1) rest (by simp) (fun z hz => hplain z (List.mem_cons_of_mem x hz))]
      rfl

theorem goodVal_arr_strings (xs : List String) (h : ∀ x ∈ xs, plainStr x = true) :
    GoodVal (Json.arr (xs.map Json.str)) := by
  constructor
  · intro f rest hfo
    have hc : cost (Json.arr (xs.map Json.str)) = 2 * xs.length + 2 := by
      simp [cost]
    rw [hc]
    cases xs with
    | nil =>
      rw [show f + (2 * ([] : List String).length + 2) = (f + 1) + 1 from by simp]
      rw [pVal_succ]
      have hsh : dumpsVal (Json.arr ([].map Json.str)) ++ rest = '[' :: (']' :: rest) := rfl
      rw [hsh, pValStep_cons]
      rw [if_neg (by decide), if_neg (by decide), if_pos rfl]
      rw [skipJsonWs_cons_not ']' rest (by decide)]
      dsimp only
      rw [if_pos rfl]
      rfl
    | cons x t =>
      rw [show f + (2 * (x :: t : List String).length + 2)
          = (f + 1 + 2 * (x :: t : List String).length) + 1 from by ring]
      rw [pVal_succ]
      have hshape : dumpsVal (Json.arr ((x :: t).map Json.str)) ++ rest
          = '[' :: (dumpsElems ((x :: t).map Json.str) ++ ']' :: rest) := by
        rw [dumpsVal]
        simp [List.append_assoc]
      rw [hshape, pValStep_cons]
      rw [if_neg (by decide), if_neg (by decide), if_pos rfl]
      obtain ⟨tail, htail⟩ := dumpsElems_str_head x (t.map Json.str)
      rw [List.map_cons, htail, List.cons_append, skipJsonWs_cons_not '"' _ (by decide)]
      dsimp only
      rw [if_neg (by decide : ¬ ('"' = ']'))]
      rw [← List.cons_append, ← htail, ← List.map_cons]
      rw [pElems_strings (x :: t) (f + 1) rest (by simp) h]
  · cases xs with
    | nil => exact ⟨'[', [']'], rfl, by decide⟩
    | cons x t =>
      refine ⟨'[', dumpsElems ((x :: t).map Json.str) ++ [']'], ?_, by decide⟩
      rw [dumpsVal]

theorem pMembersStep_cons
    (pV : List Char → Option (Json × List Char))
    (pMem : List Char → List (String × Json) → Option (List (String × Json) × List Char))
    (c0 : Char) (r0 : List Char) (acc : List (String × Json)) :
    pMembersStep pV pMem (c0 :: r0) acc =
      (if c0 = '"' then
        match pStr r0 with
        | none => none
        | some (k, r1) =>
          match skipJsonWs r1 with
          | c1 :: r2 =>
            if c1 = ':' then
              match pV (skipJsonWs r2) with
              | none => none
              | some (v, r3) =>
                match skipJsonWs r3 with
                | c3 :: r4 =>
                  if c3 = ',' then pMem (skipJsonWs r4) (dictInsert acc k v)
                  else if c3 = '\x7d' then some (dictInsert acc k v, r4)
                  else none
                | [] => none
            else none
          | [] => none
      else none) := rfl

theorem dictInsert_not_mem (acc : List (String × Json)) (k : String) (v : Json)
    (h : ∀ kv ∈ acc, kv.1 ≠ k) : dictInsert acc k v = acc ++ [(k, v)] := by
  induction acc with
  | nil => rfl
  | cons kv acc' ih =>
    rw [dictInsert]
    rw [if_neg (h kv (List.mem_cons_self kv acc'))]
    rw [ih (fun x hx => h x (List.mem_cons_of_mem kv hx))]
    rfl

theorem dumpsMembers_head (kv : String × Json) (zs : List (String × Json)) :
    ∃ tail, dumpsMembers (kv :: zs) = '"' :: tail := by
  obtain ⟨k, v⟩ := kv
  cases zs with
  | nil => exact ⟨escString k.toList ++ '"' :: ':' :: ' ' :: dumpsVal v, rfl⟩
  | cons z zs' =>
    exact ⟨(escString k.toList ++ '"' :: ':' :: ' ' :: dumpsVal v)
      ++ ',' :: ' ' :: dumpsMembers (z :: zs'), rfl⟩

theorem pMembers_parse (ms : List (String × Json)) :
    ∀ (f : Nat) (acc : List (String × Json)) (rest : List Char),
    ms ≠ [] →
    (∀ kv ∈ ms, plainStr kv.1 = true ∧ GoodVal kv.2) →
    List.Nodup ((acc ++ ms).map Prod.fst) →
    pMembers (f + mcost ms) (dumpsMembers ms ++ '\x7d' :: rest) acc
      = some (acc ++ ms, rest) := by
  induction ms with
  | nil => intro f acc rest hne _ _; exact absurd rfl hne
  | cons kv ms' ih =>
    intro f acc rest _ hgood hnodup
    obtain ⟨k, v⟩ := kv
    have hk : plainStr k = true := (hgood (k, v) (List.mem_cons_self (k, v) ms')).1
    have hkall : ∀ c ∈ k.toList, plainChar c = true := fun c hc => List.all_eq_true.mp hk c hc
    have hv : GoodVal v := (hgood (k, v) (List.mem_cons_self (k, v) ms')).2
    obtain ⟨vc, vcs, hvdump, hvws⟩ := hv.2
    have hknotin : ∀ kv2 ∈ acc, kv2.1 ≠ k := by
      intro kv2 hkv2 e
      have hsplit : (acc ++ (k, v) :: ms').map Prod.fst
          = acc.map Prod.fst ++ k :: ms'.map Prod.fst := by simp
      rw [hsplit] at hnodup
      have hdisj := List.disjoint_of_nodup_append hnodup
      exact hdisj (by rw [← e] at *; exact List.mem_map_of_mem Prod.fst hkv2)
        (by rw [e]; exact List.mem_cons_self k _)
    cases ms' with
    | nil =>
      have hfe : f + mcost [(k, v)] = (f + cost v) + 1 := by
        simp [mcost]
        ring
      rw [hfe, pMembers_succ]
      have hshape : dumpsMembers [(k, v)] ++ '\x7d' :: rest
          = '"' :: (k.toList ++ '"' :: (':' :: (' ' :: (dumpsVal v ++ '\x7d' :: rest)))) := by
        rw [dumpsMembers, escString_plain k.toList hkall]
        simp [List.append_assoc]
      rw [hshape, pMembersStep_cons, if_pos rfl]
      rw [pStr_plain k.toList hkall _, mk_toList]
      dsimp only
      rw [skipJsonWs_cons_not ':' _ (by decide)]
      dsimp only
      rw [if_pos rfl]
      have hskip : skipJsonWs (' ' :: (dumpsVal v ++ '\x7d' :: rest))
          = dumpsVal v ++ '\x7d' :: rest := by
        rw [skipJsonWs_cons_ws ' ' _ (by decide), hvdump, List.cons_append,
          skipJsonWs_cons_not vc _ hvws]
      rw [hskip]
      rw [hv.1 f ('\x7d' :: rest) (Or.inr (Or.inr (Or.inl ⟨rest, rfl⟩)))]
      dsimp only
      rw [skipJsonWs_cons_not '\x7d' rest (by decide)]
      dsimp only
      rw [if_neg (by decide : ¬ ('\x7d' = ',')), if_pos rfl]
      rw [dictInsert_not_mem acc k v hknotin]
    | cons m2 t =>
      have hfe : f + mcost ((k, v) :: m2 :: t) = (f + cost v + mcost (m2 :: t)) + 1 := by
        simp [mcost]
        ring
      rw [hfe, pMembers_succ]
      have hshape : dumpsMembers ((k, v) :: m2 :: t) ++ '\x7d' :: rest
          = '"' :: (k.toList ++ '"' :: (':' :: (' ' :: (dumpsVal v
              ++ ',' :: ' ' :: (dumpsMembers (m2 :: t) ++ '\x7d' :: rest))))) := by
        rw [dumpsMembers, escString_plain k.toList hkall]
        simp [List.append_assoc]
      rw [hshape, pMembersStep_cons, if_pos rfl]
      rw [pStr_plain k.toList hkall _, mk_toList]
      dsimp only
      rw [skipJsonWs_cons_not ':' _ (by decide)]
      dsimp only
      rw [if_pos rfl]
      have hskip : skipJsonWs (' ' :: (dumpsVal v
            ++ ',' :: ' ' :: (dumpsMembers (m2 :: t) ++ '\x7d' :: rest)))
          = dumpsVal v ++ ',' :: ' ' :: (dumpsMembers (m2 :: t) ++ '\x7d' :: rest) := by
        rw [skipJsonWs_cons_ws ' ' _ (by decide), hvdump, List.cons_append,
          skipJsonWs_cons_not vc _ hvws]
      rw [hskip]
      have hval := hv.1 (f + mcost (m2 :: t))
        (',' :: ' ' :: (dumpsMembers (m2 :: t) ++ '\x7d' :: rest)) (Or.inr (Or.inl ⟨_, rfl⟩))
      rw [show f + cost v + mcost (m2 :: t) = f + mcost (m2 :: t) + cost v from by ring]
      rw [hval]
      dsimp only
      rw [skipJsonWs_cons_not ',' _ (by decide)]
      dsimp only
      rw [if_pos rfl]
      obtain ⟨tail, htail⟩ := dumpsMembers_head m2 t
      have hskip2 : skipJsonWs (' ' :: (dumpsMembers (m2 :: t) ++ '\x7d' :: rest))
          = dumpsMembers (m2 :: t) ++ '\x7d' :: rest := by
        rw [skipJsonWs_cons_ws ' ' _ (by decide), htail, List.cons_append,
          skipJsonWs_cons_not '"' _ (by decide)]
      rw [hskip2]
      rw [dictInsert_not_mem acc k v hknotin]
      rw [show f + mcost (m2 :: t) + cost v = (f + cost v) + mcost (m2 :: t) from by ring]
      rw [ih (f + cost v) (acc ++ [(k, v)]) rest (by simp)
        (fun kv2 hkv2 => hgood kv2 (List.mem_cons_of_mem (k, v) hkv2))
        (by rw [List.append_assoc]; simpa using hnodup)]
      simp

theorem pVal_obj (ms : List (String × Json)) (f : Nat) (rest : List Char)
    (hne : ms ≠ [])
    (hgood : ∀ kv ∈ ms, plainStr kv.1 = true ∧ GoodVal kv.2)
    (hnodup : List.Nodup (ms.map Prod.fst)) :
    pVal (f + (mcost ms + 1)) (dumpsVal (Json.obj ms) ++ rest) = some (Json.obj ms, rest) := by
  rw [show f + (mcost ms + 1) = (f + mcost ms) + 1 from by ring]
  rw [pVal_succ]
  have hshape : dumpsVal (Json.obj ms) ++ rest
      = '\x7b' :: (dumpsMembers ms ++ '\x7d' :: rest) := by
    rw [dumpsVal]
    simp [List.append_assoc]
  rw [hshape, pValStep_cons]
  rw [if_neg (by decide), if_pos rfl]
  obtain ⟨m1, t, rfl⟩ : ∃ m1 t, ms = m1 :: t := by
    cases ms with
    | nil => exact absurd rfl hne
    | cons m1 t => exact ⟨m1, t, rfl⟩
  obtain ⟨tail, htail⟩ := dumpsMembers_head m1 t
  rw [htail, List.cons_append, skipJsonWs_cons_not '"' _ (by decide)]
  dsimp only
  rw [if_neg (by decide : ¬ ('"' = '\x7d'))]
  rw [← List.cons_append, ← htail]
  rw [pMembers_parse (m1 :: t) f [] rest (by simp) hgood (by simpa using hnodup)]
  simp

theorem pVal_obj_nil (ms : List (String × Json)) (f : Nat)
    (hne : ms ≠ [])
    (hgood : ∀ kv ∈ ms, plainStr kv.1 = true ∧ GoodVal kv.2)
    (hnodup : List.Nodup (ms.map Prod.fst)) :
    pVal (f + (mcost ms + 1)) (dumpsVal (Json.obj ms)) = some (Json.obj ms, []) := by
  have h := pVal_obj ms f [] hne hgood hnodup
  simpa using h

/-! ## Round trip: the practice entry -/
theorem stampChar_plain (c : Char) (h : isStampChar c = true) : plainChar c = true := by
  simp only [isStampChar, Bool.or_eq_true, decide_eq_true_eq] at h
  rcases h with ((hd | rfl) | rfl) | rfl
  · obtain ⟨h1, h2⟩ : 48 ≤ c.toNat ∧ c.toNat ≤ 57 := by
      simp only [Char.isDigit, Bool.and_eq_true, decide_eq_true_eq] at hd
      exact hd
    simp only [plainChar, Bool.and_eq_true, decide_eq_true_eq, bne_iff_ne, ne_eq]
    refine ⟨⟨⟨?_, ?_⟩, by omega⟩, ?_⟩
    · intro e; subst e; exact absurd h1 (by decide)
    · intro e; subst e; exact absurd h2 (by decide)
    · intro e; subst e; exact absurd h2 (by decide)
  · decide
  · decide
  · decide

theorem stamp_plain (s : String) (h : wellFormedStamp s = true) : plainStr s = true := by
  rw [plainStr, List.all_eq_true]
  intro c hc
  exact stampChar_plain c (List.all_eq_true.mp h c hc)

theorem members_plain : ∀ x ∈ MEMBERS, plainStr x = true := by decide

theorem items_plain : ∀ x ∈ PRACTICE_ITEMS, plainStr x = true := by decide

theorem entry_good (e : PracticeEntry) (h : ValidEntry e) :
    ∀ kv ∈ entryMembers e, plainStr kv.1 = true ∧ GoodVal kv.2 := by
  obtain ⟨hm, hmin, hpr, hts, hdate⟩ := h
  intro kv hkv
  simp only [entryMembers, List.mem_cons, List.not_mem_nil, or_false] at hkv
  rcases hkv with rfl | rfl | rfl | rfl | rfl | rfl
  · exact ⟨by decide, goodVal_int_one⟩
  · exact ⟨show plainStr "ts" = true by decide, goodVal_str e.ts (stamp_plain _ hts)⟩
  · exact ⟨show plainStr "date" = true by decide, goodVal_str e.date (stamp_plain _ hdate)⟩
  · exact ⟨show plainStr "member" = true by decide, goodVal_str e.member (members_plain e.member hm)⟩
  · exact ⟨show plainStr "minutes" = true by decide, goodVal_minutes e.minutes hmin⟩
  · exact ⟨show plainStr "practiced" = true by decide,
      goodVal_arr_strings e.practiced (fun x hx => items_plain x (hpr x hx))⟩

theorem entry_keys_nodup (e : PracticeEntry) :
    List.Nodup ((entryMembers e).map Prod.fst) := by
  simp only [entryMembers, List.map_cons, List.map_nil]
  decide

theorem entry_mcost (e : PracticeEntry) :
    mcost (entryMembers e) = 2 * e.practiced.length + 13 := by
  simp only [entryMembers, mcost, cost, List.length_map]
  ring

theorem dumpsVal_str_len (x : String) : 2 ≤ (dumpsVal (Json.str x)).length := by
  rw [dumpsVal]
  simp

theorem dumpsElems_len (xs : List String) :
    xs.length ≤ (dumpsElems (xs.map Json.str)).length := by
  induction xs with
  | nil => simp [dumpsElems]
  | cons x t ih =>
    cases t with
    | nil =>
      have := dumpsVal_str_len x
      simp only [List.map_cons, List.map_nil, dumpsElems, List.length_cons, List.length_nil]
      omega
    | cons y t' =>
      have h1 := dumpsVal_str_len x
      have h2 : (y :: t' : List String).length ≤ (dumpsElems ((y :: t').map Json.str)).length := ih
      simp only [List.map_cons, dumpsElems, List.length_append, List.length_cons] at *
      omega

theorem entry_dumps_len (e : PracticeEntry) :
    e.practiced.length + 6 ≤ (dumpsVal (entryJson e)).length := by
  have h1 := dumpsElems_len e.practiced
  rw [entryJson]
  simp only [entryMembers, dumpsVal, dumpsMembers, List.length_append, List.length_cons]
  simp only [List.length_append, List.length_cons, List.length_nil]
  omega

theorem loads_entry (e : PracticeEntry) (h : ValidEntry e) :
    json_loads (json_dumps (entryJson e)) = some (entryJson e) := by
  have hgood := entry_good e h
  have hnodup := entry_keys_nodup e
  have hmc := entry_mcost e
  have hlen := entry_dumps_len e
  rw [json_loads, json_dumps, length_mk, toList_mk]
  obtain ⟨tl, htl⟩ : ∃ tl, dumpsVal (entryJson e) = '\x7b' :: tl := by
    rw [entryJson]
    exact ⟨dumpsMembers (entryMembers e) ++ ['\x7d'], by rw [dumpsVal]⟩
  rw [htl, skipJsonWs_cons_not '\x7b' _ (by decide), ← htl]
  have hfe : 2 * (dumpsVal (entryJson e)).length + 2
      = (2 * (dumpsVal (entryJson e)).length + 2 - (mcost (entryMembers e) + 1))
        + (mcost (entryMembers e) + 1) := by
    rw [hmc]
    omega
  rw [hfe, entryJson]
  rw [pVal_obj_nil (entryMembers e) _ (by simp [entryMembers]) hgood hnodup]
  simp [skipJsonWs]

/-! ## Round trip: locating the marked region

For a valid entry the serialised object contains no closing brace except
its final one (all strings are plain, all numbers are digits), so the lazy
scan of `(\{.*?\})` closes the group exactly at the end of the payload,
where the rest of the pattern matches. -/
theorem mem_escString_ne_brace (s : String) (hp : plainStr s = true) :
    ∀ c ∈ escString s.toList, c ≠ '\x7d' := by
  rw [escString_plain s.toList (fun c hc => List.all_eq_true.mp hp c hc)]
  intro c hc
  exact (plainChar_spec c (List.all_eq_true.mp hp c hc)).2.2.2

theorem mem_dumpsStr_ne_brace (s : String) (hp : plainStr s = true) :
    ∀ c ∈ dumpsVal (Json.str s), c ≠ '\x7d' := by
  intro c hc
  rw [dumpsVal] at hc
  simp only [List.mem_cons, List.mem_append, List.mem_singleton, List.not_mem_nil,
    or_false] at hc
  rcases hc with rfl | hc | rfl
  · decide
  · exact mem_escString_ne_brace s hp c hc
  · decide

theorem mem_dumpsElems_ne_brace (xs : List String) (h : ∀ x ∈ xs, plainStr x = true) :
    ∀ c ∈ dumpsElems (xs.map Json.str), c ≠ '\x7d' := by
  induction xs with
  | nil => intro c hc; simp [dumpsElems] at hc
  | cons x t ih =>
    intro c hc
    cases t with
    | nil =>
      simp only [List.map_cons, List.map_nil, dumpsElems] at hc
      exact mem_dumpsStr_ne_brace x (h x (List.mem_cons_self x [])) c hc
    | cons y t' =>
      simp only [List.map_cons, dumpsElems, List.mem_append, List.mem_cons] at hc
      rcases hc with hc | rfl | rfl | hc
      · exact mem_dumpsStr_ne_brace x (h x (List.mem_cons_self x (y :: t'))) c hc
      · decide
      · decide
      · exact ih (fun z hz => h z (List.mem_cons_of_mem x hz)) c
          (by simpa [dumpsElems] using hc)

theorem mem_minutes_ne_brace (m : Int) (hm : m ∈ MINUTES) :
    ∀ c ∈ dumpsVal (Json.int m), c ≠ '\x7d' := by
  simp only [MINUTES, List.mem_cons, List.not_mem_nil, or_false] at hm
  rcases hm with rfl | rfl | rfl | rfl | rfl | rfl | rfl | rfl | rfl | rfl <;> decide

theorem mem_dumpsMembers_ne_brace (ms : List (String × Json))
    (h : ∀ kv ∈ ms, (∀ c ∈ escString kv.1.toList, c ≠ '\x7d')
        ∧ (∀ c ∈ dumpsVal kv.2, c ≠ '\x7d')) :
    ∀ c ∈ dumpsMembers ms, c ≠ '\x7d' := by
  induction ms with
  | nil => intro c hc; simp [dumpsMembers] at hc
  | cons kv t ih =>
    obtain ⟨k, v⟩ := kv
    intro c hc
    have hk := (h (k, v) (List.mem_cons_self (k, v) t)).1
    have hv := (h (k, v) (List.mem_cons_self (k, v) t)).2
    cases t with
    | nil =>
      simp only [dumpsMembers, List.mem_cons, List.mem_append] at hc
      rcases hc with rfl | hc | rfl | rfl | rfl | hc
      · decide
      · exact hk c hc
      · decide
      · decide
      · decide
      · exact hv c hc
    | cons m2 t' =>
      simp only [dumpsMembers, List.mem_append, List.mem_cons] at hc
      rcases hc with (rfl | hc | rfl | rfl | rfl | hc) | rfl | rfl | hc
      · decide
      · exact hk c hc
      · decide
      · decide
      · decide
      · exact hv c hc
      · decide
      · decide
      · exact ih (fun kv2 hkv2 => h kv2 (List.mem_cons_of_mem (k, v) hkv2)) c hc

theorem entry_members_ne_brace (e : PracticeEntry) (h : ValidEntry e) :
    ∀ c ∈ dumpsMembers (entryMembers e), c ≠ '\x7d' := by
  obtain ⟨hm, hmin, hpr, hts, hdate⟩ := h
  refine mem_dumpsMembers_ne_brace (entryMembers e) ?_
  intro kv hkv
  simp only [entryMembers, List.mem_cons, List.not_mem_nil, or_false] at hkv
  rcases hkv with rfl | rfl | rfl | rfl | rfl | rfl
  · exact ⟨by decide, by decide⟩
  · exact ⟨mem_escString_ne_brace "ts" (by decide),
      mem_dumpsStr_ne_brace e.ts (stamp_plain _ hts)⟩
  · exact ⟨mem_escString_ne_brace "date" (by decide),
      mem_dumpsStr_ne_brace e.date (stamp_plain _ hdate)⟩
  · exact ⟨mem_escString_ne_brace "member" (by decide),
      mem_dumpsStr_ne_brace e.member (members_plain e.member hm)⟩
  · exact ⟨mem_escString_ne_brace "minutes" (by decide),
      mem_minutes_ne_brace e.minutes hmin⟩
  · refine ⟨mem_escString_ne_brace "practiced" (by decide), ?_⟩
    intro c hc
    rw [dumpsVal] at hc
    simp only [List.mem_cons, List.mem_append, List.mem_singleton, List.not_mem_nil,
      or_false] at hc
    rcases hc with rfl | hc | rfl
    · decide
    · exact mem_dumpsElems_ne_brace e.practiced
        (fun x hx => items_plain x (hpr x hx)) c hc
    · decide

theorem tailOK_enc (rest : List Char) :
    tailOK ('\n' :: '`' :: '`' :: '`' :: '\n' :: (END.toList ++ rest)) = true := by
  rw [tailOK]
  rw [skipRegexWs_cons_ws '\n' _ (by decide), skipRegexWs_cons_not '`' _ (by decide)]
  rw [show ('`' : Char) :: '`' :: '`' :: '\n' :: (END.toList ++ rest)
      = "```".toList ++ ('\n' :: (END.toList ++ rest)) from rfl]
  rw [dropLit_self]
  dsimp only
  rw [skipRegexWs_cons_ws '\n' _ (by decide)]
  rw [show END.toList ++ rest = 'O' :: ("VINGSLOGG_V1_END".toList ++ rest) from rfl]
  rw [skipRegexWs_cons_not 'O' _ (by decide)]
  rw [show ('O' : Char) :: ("VINGSLOGG_V1_END".toList ++ rest) = END.toList ++ rest from rfl]
  rw [dropLit_self]

theorem lazyScan_no_rbrace (interior : List Char) :
    ∀ (tl acc : List Char), (∀ c ∈ interior, c ≠ '\x7d') → tailOK tl = true →
    lazyScan (interior ++ '\x7d' :: tl) acc
      = some ('\x7b' :: (acc.reverse ++ (interior ++ ['\x7d']))) := by
  induction interior with
  | nil =>
    intro tl acc _ htl
    rw [List.nil_append, lazyScan, htl]
    simp
  | cons c cs ih =>
    intro tl acc hbr htl
    rw [List.cons_append, lazyScan]
    have hc : c ≠ '\x7d' := hbr c (List.mem_cons_self c cs)
    rw [if_neg (by simp [hc])]
    rw [ih tl (c :: acc) (fun z hz => hbr z (List.mem_cons_of_mem c hz)) htl]
    simp

theorem matchMarked_enc (e : PracticeEntry) (h : ValidEntry e) (suffix : List Char) :
    matchMarked ((encode_entry_as_comment (entryJson e)).toList ++ suffix)
      = some (dumpsVal (entryJson e)) := by
  have henc : (encode_entry_as_comment (entryJson e)).toList ++ suffix
      = BEGIN.toList ++ ('\n' :: '`' :: '`' :: '`' :: 'j' :: 's' :: 'o' :: 'n' :: '\n' ::
          (dumpsVal (entryJson e)
            ++ ('\n' :: '`' :: '`' :: '`' :: '\n' :: (END.toList ++ suffix)))) := by
    rw [encode_entry_as_comment]
    simp only [String.data_append, String.toList, json_dumps]
    simp [List.append_assoc]
  rw [henc, matchMarked, dropLit_self BEGIN.toList _]
  dsimp only
  rw [skipRegexWs_cons_ws '\n' _ (by decide), skipRegexWs_cons_not '`' _ (by decide)]
  rw [show ('`' : Char) :: '`' :: '`' :: 'j' :: 's' :: 'o' :: 'n' :: '\n' ::
        (dumpsVal (entryJson e)
          ++ ('\n' :: '`' :: '`' :: '`' :: '\n' :: (END.toList ++ suffix)))
      = "```json".toList ++ ('\n' ::
        (dumpsVal (entryJson e)
          ++ ('\n' :: '`' :: '`' :: '`' :: '\n' :: (END.toList ++ suffix)))) from rfl]
  rw [dropLit_self]
  dsimp only
  rw [skipRegexWs_cons_ws '\n' _ (by decide)]
  have hpayload : dumpsVal (entryJson e)
      = '\x7b' :: (dumpsMembers (entryMembers e) ++ ['\x7d']) := by
    rw [entryJson, dumpsVal]
  rw [hpayload, List.cons_append, skipRegexWs_cons_not '\x7b' _ (by decide)]
  have hmid : (dumpsMembers (entryMembers e) ++ ['\x7d'])
        ++ ('\n' :: '`' :: '`' :: '`' :: '\n' :: (END.toList ++ suffix))
      = dumpsMembers (entryMembers e)
        ++ '\x7d' :: ('\n' :: '`' :: '`' :: '`' :: '\n' :: (END.toList ++ suffix)) := by
    simp [List.append_assoc]
  rw [hmid]
  dsimp only
  rw [if_pos rfl]
  rw [lazyScan_no_rbrace (dumpsMembers (entryMembers e)) _ []
    (entry_members_ne_brace e h) (tailOK_enc suffix)]
  simp

theorem searchMarked_of_matchMarked (cs g : List Char) (h : matchMarked cs = some g) :
    searchMarked cs = some g := by
  cases cs with
  | nil => rw [searchMarked]; rw [h]
  | cons c rest => rw [searchMarked, h]

theorem decode_encode (e : PracticeEntry) (h : ValidEntry e) (suffix : String) :
    decodeBlob ⟨some (encode_entry_as_comment (entryJson e) ++ suffix)⟩
      = some (entryJson e) := by
  have hsearch : searchMarked (commentBody ⟨some (encode_entry_as_comment (entryJson e) ++ suffix)⟩).toList
      = some (dumpsVal (entryJson e)) := by
    have hbody : (commentBody ⟨some (encode_entry_as_comment (entryJson e) ++ suffix)⟩).toList
        = (encode_entry_as_comment (entryJson e)).toList ++ suffix.toList := by
      simp [commentBody, String.toList, String.data_append]
    rw [hbody]
    exact searchMarked_of_matchMarked _ _ (matchMarked_enc e h suffix.toList)
  rw [decodeBlob, hsearch]
  exact loads_entry e h

/-- Round trip with no trailing text: decoding the encoded comment of a
valid entry yields the entry. -/
theorem decode_encode_exact (e : PracticeEntry) (h : ValidEntry e) :
    decodeBlob ⟨some (encode_entry_as_comment (entryJson e))⟩ = some (entryJson e) := by
  have := decode_encode e h ""
  simpa using this

/-- C1.  For every valid practice entry — member from the roster, minutes
from the fixed option set, practiced items from the catalog, version 1,
well-formed `ts` and `date` — decoding the singleton collection containing
the encoding of that entry returns exactly the one-element list holding
that entry, field for field. -/
theorem claim_C1_roundtrip (e : PracticeEntry) (h : ValidEntry e) :
    extract_entries_from_comments [⟨some (encode_entry_as_comment (entryJson e))⟩]
      = [entryJson e] := by
  rw [extract_eq_filterMap]
  simp [List.filterMap_cons, decode_encode_exact e h]

/-- Witness for C1: a concrete valid entry round-trips through the
codec. -/
theorem claim_C1_witness :
    extract_entries_from_comments
      [⟨some (encode_entry_as_comment (entryJson
        ⟨"2026-10-12T14:30:05", "2026-10-12", "Mats", 30, ["Oppvarming", "Norge"]⟩))⟩]
      = [entryJson ⟨"2026-10-12T14:30:05", "2026-10-12", "Mats", 30, ["Oppvarming", "Norge"]⟩] :=
  claim_C1_roundtrip
    ⟨"2026-10-12T14:30:05", "2026-10-12", "Mats", 30, ["Oppvarming", "Norge"]⟩
    (by decide)

/-- C4.  A blob holding two marker-delimited regions contributes only its
first region's entry — the second valid region is ignored — and no blob
ever contributes more than one entry. -/
theorem claim_C4_first_region (e1 e2 : PracticeEntry) (sep : String)
    (h1 : ValidEntry e1) (_h2 : ValidEntry e2) :
    extract_entries_from_comments
      [⟨some (encode_entry_as_comment (entryJson e1) ++ sep
        ++ encode_entry_as_comment (entryJson e2))⟩] = [entryJson e1]
    ∧ ∀ c : GhComment, (extract_entries_from_comments [c]).length ≤ 1 := by
  constructor
  · rw [extract_eq_filterMap]
    have hassoc : encode_entry_as_comment (entryJson e1) ++ sep
          ++ encode_entry_as_comment (entryJson e2)
        = encode_entry_as_comment (entryJson e1)
          ++ (sep ++ encode_entry_as_comment (entryJson e2)) := by
      rw [String.append_assoc]
    rw [hassoc]
    simp [List.filterMap_cons,
      decode_encode e1 h1 (sep ++ encode_entry_as_comment (entryJson e2))]
  · intro c
    rw [extract_eq_filterMap]
    cases hd : decodeBlob c <;> simp [List.filterMap_cons, hd]

/-- Witness for C4: a blob with two concrete valid regions yields only the
first entry. -/
theorem claim_C4_witness :
    extract_entries_from_comments
      [⟨some (encode_entry_as_comment (entryJson
          ⟨"2026-10-12T10:00:00", "2026-10-12", "Birk", 20, ["Norge"]⟩)
        ++ " mellomtekst "
        ++ encode_entry_as_comment (entryJson
          ⟨"2026-10-12T11:00:00", "2026-10-12", "Jens", 45, []⟩))⟩]
      = [entryJson ⟨"2026-10-12T10:00:00", "2026-10-12", "Birk", 20, ["Norge"]⟩]
    ∧ ∀ c : GhComment, (extract_entries_from_comments [c]).length ≤ 1 :=
  claim_C4_first_region
    ⟨"2026-10-12T10:00:00", "2026-10-12", "Birk", 20, ["Norge"]⟩
    ⟨"2026-10-12T11:00:00", "2026-10-12", "Jens", 45, []⟩
    " mellomtekst " (by decide) (by decide)

/-- Appending the encoded comment of a valid entry to a thread whose table
builds successfully extends the rows by the new entry's row: the new
entry carries the `ts`, `date` and `minutes` keys, its minutes value is
one of the fixed options (finite and castable), and the older entries'
cells are unchanged. -/
theorem load_append_entry (comments : List GhComment) (rows : List LogRow)
    (e : PracticeEntry) (hval : ValidEntry e)
    (h : load_log_rows comments = Except.ok rows) :
    load_log_rows (comments ++ [⟨some (encode_entry_as_comment (entryJson e))⟩])
      = Except.ok (rows ++ [⟨entryJson e, e.minutes⟩]) := by
  rw [load_log_rows_eq] at h
  obtain ⟨hbad, hcast, hrows⟩ := load_entries_ok _ rows h
  have hext : extract_entries_from_comments
        (comments ++ [⟨some (encode_entry_as_comment (entryJson e))⟩])
      = extract_entries_from_comments comments ++ [entryJson e] := by
    rw [extract_eq_filterMap, extract_eq_filterMap, List.filterMap_append]
    simp [List.filterMap_cons, decode_encode_exact e hval]
  rw [load_log_rows_eq, hext]
  set E := extract_entries_from_comments comments with hE
  have hne : (E ++ [entryJson e]).isEmpty = false := by cases E <;> rfl
  have hts : hasColumn (E ++ [entryJson e]) "ts" = true := by
    unfold hasColumn
    rw [List.any_append]
    have hx : [entryJson e].any (fun j => (jsonGet j "ts").isSome) = true := rfl
    rw [hx, Bool.or_true]
  have hdate : hasColumn (E ++ [entryJson e]) "date" = true := by
    unfold hasColumn
    rw [List.any_append]
    have hx : [entryJson e].any (fun j => (jsonGet j "date").isSome) = true := rfl
    rw [hx, Bool.or_true]
  have hmin : hasColumn (E ++ [entryJson e]) "minutes" = true := by
    unfold hasColumn
    rw [List.any_append]
    have hx : [entryJson e].any (fun j => (jsonGet j "minutes").isSome) = true := rfl
    rw [hx, Bool.or_true]
  have hcellE : minutesCell (entryJson e) = PdCell.fin e.minutes := rfl
  have hbad2 : ((E ++ [entryJson e]).map minutesCell).any isBadCell = false := by
    rw [List.map_append, List.any_append, hbad]
    rw [show ([entryJson e].map minutesCell).any isBadCell = false from by
      rw [List.map_singleton, hcellE]; rfl]
    rfl
  have hcast2 : ((E ++ [entryJson e]).map minutesCell).any cellUncastable = false := by
    rw [List.map_append, List.any_append, hcast]
    rw [show ([entryJson e].map minutesCell).any cellUncastable = false from by
      rw [List.map_singleton, hcellE]
      simp only [List.any_cons, List.any_nil, Bool.or_false]
      exact minutes_castable e.minutes hval.2.1]
    rfl
  unfold load_log_df_entries
  rw [if_neg (by simp only [hne]; decide), if_neg (by simp only [hts]; decide),
    if_neg (by simp only [hdate]; decide), if_neg (by simp only [hmin]; decide),
    if_neg (by simp only [hbad2]; decide), if_neg (by simp only [hcast2]; decide),
    List.map_append, ← hrows]
  rfl

/-- C6.  After a successful append the cache is cleared before control
returns (the handler shows success and reruns), so the next cached read
performs a fresh remote fetch whose result ends with the just-appended
entry; and within the 30-second TTL window with no intervening append,
two reads of a successfully loading thread return the same rows with no
second remote call and no state change (a read that raises caches
nothing, so the TTL guarantee is conditioned on the load returning). -/
theorem claim_C6_cache_invalidation (s : AppState) (e : PracticeEntry) (status : Nat)
    (now : Int) (rows : List LogRow)
    (hval : ValidEntry e) (hok : post_issue_comment status = Except.ok ())
    (hload : load_log_rows s.thread = Except.ok rows) :
    ((submit_step s (entryJson e) status).1.cache = none
      ∧ (submit_step s (entryJson e) status).2 = SubmitMsg.success
      ∧ (cached_load now (submit_step s (entryJson e) status).1).2.2 = true
      ∧ (cached_load now (submit_step s (entryJson e) status).1).1
          = Except.ok (rows ++ [⟨entryJson e, e.minutes⟩]))
    ∧ ∀ (s2 : AppState) (rows2 : List LogRow) (t1 t2 : Int), s2.cache = none →
        load_log_rows s2.thread = Except.ok rows2 → t1 ≤ t2 → t2 - t1 < 30 →
        (cached_load t2 (cached_load t1 s2).2.1).1 = (cached_load t1 s2).1
        ∧ (cached_load t2 (cached_load t1 s2).2.1).2.2 = false
        ∧ (cached_load t2 (cached_load t1 s2).2.1).2.1 = (cached_load t1 s2).2.1 := by
  have hsub : submit_step s (entryJson e) status
      = (⟨s.thread ++ [⟨some (encode_entry_as_comment (entryJson e))⟩], none⟩,
         SubmitMsg.success) := by
    rw [submit_step, hok]
  have happend := load_append_entry s.thread rows e hval hload
  constructor
  · rw [hsub]
    refine ⟨rfl, rfl, ?_, ?_⟩
    · rw [cached_load]
      dsimp only
      rw [happend]
    · rw [cached_load]
      dsimp only
      rw [happend]
  · intro s2 rows2 t1 t2 hc hl2 h12 h30
    have h1 : cached_load t1 s2 = (Except.ok rows2, ⟨s2.thread, some (t1, rows2)⟩, true) := by
      rw [cached_load, hc]
      dsimp only
      rw [hl2]
    rw [h1]
    have h2 : cached_load t2 (⟨s2.thread, some (t1, rows2)⟩ : AppState)
        = (Except.ok rows2, ⟨s2.thread, some (t1, rows2)⟩, false) := by
      rw [cached_load]
      dsimp only
      rw [if_pos (by omega)]
    rw [h2]
    exact ⟨rfl, rfl, rfl⟩

/-- Witness for C6: a successful append (status 201) on an empty-thread
state clears the cache and the next read at time 0 returns the one-row
table holding the new entry; two reads within the TTL of a successfully
loading thread share the cached value. -/
theorem claim_C6_witness :
    ((submit_step ⟨[], none⟩ (entryJson
          ⟨"2026-10-12T14:30:05", "2026-10-12", "Mats", 30, ["Oppvarming"]⟩) 201).1.cache = none
      ∧ (submit_step ⟨[], none⟩ (entryJson
          ⟨"2026-10-12T14:30:05", "2026-10-12", "Mats", 30, ["Oppvarming"]⟩) 201).2
          = SubmitMsg.success
      ∧ (cached_load 0 (submit_step ⟨[], none⟩ (entryJson
          ⟨"2026-10-12T14:30:05", "2026-10-12", "Mats", 30, ["Oppvarming"]⟩) 201).1).2.2 = true
      ∧ (cached_load 0 (submit_step ⟨[], none⟩ (entryJson
          ⟨"2026-10-12T14:30:05", "2026-10-12", "Mats", 30, ["Oppvarming"]⟩) 201).1).1
          = Except.ok ([]
            ++ [⟨entryJson ⟨"2026-10-12T14:30:05", "2026-10-12", "Mats", 30, ["Oppvarming"]⟩, 30⟩]))
    ∧ ∀ (s2 : AppState) (rows2 : List LogRow) (t1 t2 : Int), s2.cache = none →
        load_log_rows s2.thread = Except.ok rows2 → t1 ≤ t2 → t2 - t1 < 30 →
        (cached_load t2 (cached_load t1 s2).2.1).1 = (cached_load t1 s2).1
        ∧ (cached_load t2 (cached_load t1 s2).2.1).2.2 = false
        ∧ (cached_load t2 (cached_load t1 s2).2.1).2.1 = (cached_load t1 s2).2.1 :=
  claim_C6_cache_invalidation ⟨[], none⟩
    ⟨"2026-10-12T14:30:05", "2026-10-12", "Mats", 30, ["Oppvarming"]⟩
    201 0 [] (by decide) (by decide) (by rfl)

end Ovingslogg
